import Mathlib

/-!
Verification of the `turl-release` cleanup engine (cleanup.js).

Shallow embedding: file contents are `List Char`; the JavaScript regular
expressions used by the cleanup engine are embedded as deterministic
scanners that implement exactly the backtracking-match semantics of the
specific patterns appearing in the source.  File-system effects of the
orchestrator are modelled by threading an explicit store
`String → Except SysErr (List Char)` through the run.
-/

namespace Turl

/-- Convert a string literal to the character-list representation used
throughout this development. -/
def str (s : String) : List Char := s.data

/-- JavaScript `\s` (ECMA-262 WhiteSpace ∪ LineTerminator). -/
def jsSpace (c : Char) : Bool :=
  c == ' ' || c == '\t' || c == '\n' || c == '\x0b' || c == '\x0c' ||
  c == '\r' || c == '\u00a0' || c == '\u1680' ||
  (0x2000 ≤ c.toNat && c.toNat ≤ 0x200a) ||
  c == '\u2028' || c == '\u2029' || c == '\u202f' ||
  c == '\u205f' || c == '\u3000' || c == '\ufeff'

/-- ECMAScript LineTerminator — the characters after which a multiline `^`
matches: `\n`, `\r`, U+2028, U+2029. -/
def isLineTerm (c : Char) : Bool :=
  c == '\n' || c == '\r' || c == '\u2028' || c == '\u2029'

/-- JavaScript `\w` = `[A-Za-z0-9_]`. -/
def isWordChar (c : Char) : Bool :=
  (('a' ≤ c && c ≤ 'z') || ('A' ≤ c && c ≤ 'Z') || ('0' ≤ c && c ≤ '9') || c == '_')

/-- `[a-zA-Z_]`, the first character of a CSS class token. -/
def isAlphaUnd (c : Char) : Bool :=
  (('a' ≤ c && c ≤ 'z') || ('A' ≤ c && c ≤ 'Z') || c == '_')

/-- `[\w-]`, a continuation character of a CSS class token. -/
def isWordHyphen (c : Char) : Bool := isWordChar c || c == '-'

/-- `[^)(]` — any character other than a parenthesis. -/
def notParen (c : Char) : Bool := !(c == '(' || c == ')')

/-- Does `p` occur as a leading block of `s`? -/
def startsWithL : List Char → List Char → Bool
  | [], _ => true
  | _ :: _, [] => false
  | p :: ps, c :: cs => p == c && startsWithL ps cs

/-- Does the pattern `p` occur anywhere inside `s`? -/
def hasTok (p : List Char) : List Char → Bool
  | [] => startsWithL p []
  | c :: cs => startsWithL p (c :: cs) || hasTok p cs

/-- The debug-log token `console.log`. -/
def tok : List Char := str "console.log"

/-- Number of non-overlapping occurrences of `console.log`, the way the
orchestrator counts them with `(content.match(/console\.log/g) || []).length`
(the token has no self-overlap, so the global scan counts every occurrence). -/
def countTokF : Nat → List Char → Nat
  | 0, _ => 0
  | _ + 1, [] => 0
  | n + 1, c :: cs =>
    if startsWithL tok (c :: cs) then 1 + countTokF n ((c :: cs).drop tok.length)
    else countTokF n cs

/-- The wrapper supplying sufficient fuel (every step consumes at least one
character, so `length + 1` steps always finish the scan). -/
def countTok (s : List Char) : Nat := countTokF (s.length + 1) s

/-- `String.prototype.split("\n")` on character lists. -/
def splitNl : List Char → List (List Char)
  | [] => [[]]
  | c :: cs =>
    if c = '\n' then [] :: splitNl cs
    else
      match splitNl cs with
      | [] => [[c]]
      | l :: ls => (c :: l) :: ls

/-- `Array.prototype.join("\n")` on character lists. -/
def joinNl : List (List Char) → List Char
  | [] => []
  | [l] => l
  | l :: l2 :: ls => l ++ '\n' :: joinNl (l2 :: ls)

/-! ### The call-removal regex

`/console\.log\s*\((?:[^)(]+|\((?:[^)(]+|\([^)(]*\))*\))*\)\s*;?\s*\n?/g`

The argument part is embedded as the deterministic scan the backtracking
engine performs: the starred alternation prefers a greedy `[^)(]+` run,
then a one-level group; the scan stops at the first position holding `)`
(the final `\)` of the pattern), a bad `(`, or the end of input, and no
backtracked parse can end at a `)` when the maximal parse does not. -/
/-- Strip the literal `console.log` from the front of `s`. -/
def dropTok (s : List Char) : Option (List Char) :=
  if startsWithL tok s then some (s.drop tok.length) else none

/-- `\([^)(]*\)` — an innermost parenthesised group. -/
def inner2 : List Char → Option (List Char)
  | '(' :: r =>
    match r.dropWhile notParen with
    | ')' :: r2 => some r2
    | _ => none
  | _ => none

/-- `(?:[^)(]+|\([^)(]*\))*` — the one-level-nested argument interior. -/
def inner1LoopF : Nat → List Char → List Char
  | 0, s => s
  | _ + 1, [] => []
  | n + 1, c :: cs =>
    if notParen c then inner1LoopF n (cs.dropWhile notParen)
    else if c == '(' then
      match inner2 (c :: cs) with
      | some r => inner1LoopF n r
      | none => c :: cs
    else c :: cs

/-- The loop with sufficient fuel: every iteration consumes at least one
character. -/
def inner1Loop (s : List Char) : List Char := inner1LoopF (s.length + 1) s

/-- `\((?:[^)(]+|\([^)(]*\))*\)` — a one-level argument group. -/
def group1 : List Char → Option (List Char)
  | '(' :: r =>
    match inner1Loop r with
    | ')' :: r2 => some r2
    | _ => none
  | _ => none

/-- `(?:[^)(]+|\((?:[^)(]+|\([^)(]*\))*\))*` — the whole argument list. -/
def argsLoopF : Nat → List Char → List Char
  | 0, s => s
  | _ + 1, [] => []
  | n + 1, c :: cs =>
    if notParen c then argsLoopF n (cs.dropWhile notParen)
    else if c == '(' then
      match group1 (c :: cs) with
      | some r => argsLoopF n r
      | none => c :: cs
    else c :: cs

/-- The loop with sufficient fuel: every iteration consumes at least one
character. -/
def argsLoop (s : List Char) : List Char := argsLoopF (s.length + 1) s

/-- Require character `c` at the head (the mandatory `\(` and `\)` of the
pattern), returning the rest. -/
def expectChar (c : Char) (s : List Char) : Option (List Char) :=
  match s with
  | d :: t => if d == c then some t else none
  | _ => none

/-- Consume an optional occurrence of `c` (`;?` and `\n?`). -/
def eatChar (c : Char) (s : List Char) : List Char :=
  match s with
  | d :: t => if d == c then t else s
  | _ => s

/-- Match the whole call pattern at the head of `s`; on success return the
rest of the input after the match.  The trailing `\s*;?\s*\n?` is consumed
greedily exactly as the engine does. -/
def matchCall (s : List Char) : Option (List Char) :=
  match dropTok s with
  | none => none
  | some r1 =>
    match expectChar '(' (r1.dropWhile jsSpace) with
    | none => none
    | some r3 =>
      match expectChar ')' (argsLoop r3) with
      | none => none
      | some r5 =>
        some (eatChar '\n' ((eatChar ';' (r5.dropWhile jsSpace)).dropWhile jsSpace))

/-- The global replace of the call pattern by the empty string: try the
pattern at every position from left to right, resuming after each match. -/
def scanCallsF : Nat → List Char → List Char
  | 0, s => s
  | _ + 1, [] => []
  | n + 1, c :: cs =>
    match matchCall (c :: cs) with
    | some rest => scanCallsF n rest
    | none => c :: scanCallsF n cs

/-- The scan with sufficient fuel: a match consumes at least one character
(it contains the literal token), and otherwise one character is copied. -/
def scanCalls (s : List Char) : List Char := scanCallsF (s.length + 1) s

/-- One attempt of `^\s*\n` at a line start: if the whitespace run from
here contains a `\n`, the match extends to the last `\n` of the run, and
the rest (the run's tail after that `\n`, then the non-space remainder)
is returned. -/
def matchB (s : List Char) : Option (List Char) :=
  let run := s.takeWhile jsSpace
  if run.contains '\n' then
    some ((run.reverse.takeWhile (fun c => !(c == '\n'))).reverse ++ s.dropWhile jsSpace)
  else none

/-- The global multiline scan of `^\s*\n → "\n"`; `atStart` records whether
the current position is a line start in the original string. -/
def goBF : Nat → Bool → List Char → List Char
  | 0, _, s => s
  | _ + 1, _, [] => []
  | n + 1, atStart, c :: cs =>
    if atStart then
      (matchB (c :: cs)).elim (c :: goBF n (isLineTerm c) cs)
        (fun rest => '\n' :: goBF n true rest)
    else c :: goBF n (isLineTerm c) cs

/-- The scan with sufficient fuel: each step consumes at least one
character (a match always contains its final newline). -/
def goB (atStart : Bool) (s : List Char) : List Char := goBF (s.length + 1) atStart s

/-! ### The newline-collapse replace `/\n{3,}/g → "\n\n"` -/
/-- Greedy scan collapsing every maximal run of three or more newlines. -/
def goCF : Nat → List Char → List Char
  | 0, s => s
  | _ + 1, [] => []
  | n + 1, c :: cs =>
    if 3 ≤ ((c :: cs).takeWhile (fun d => d == '\n')).length then
      '\n' :: '\n' :: goCF n ((c :: cs).dropWhile (fun d => d == '\n'))
    else c :: goCF n cs

/-- The scan with sufficient fuel: each step consumes at least one
character. -/
def goC (s : List Char) : List Char := goCF (s.length + 1) s

/-- `removeConsoleLogs` from cleanup.js, for string contents (the dynamic
`typeof content !== "string"` guard cannot fire on the `List Char` model):
the call-removal replace, then the blank-line replace, then the
newline-collapse replace. -/
def removeConsoleLogs (content : List Char) : List Char :=
  goC (goB true (scanCalls content))

/-- Side condition under which the blank-line replace `^\s*\n → "\n"` is the
identity: no whitespace run starting at a line start (the text's start,
or any position following a LineTerminator) contains a newline, i.e. no
line of the text is whitespace-only with a terminating newline. -/
def bSafe : Bool → List Char → Bool
  | _, [] => true
  | atStart, c :: cs =>
    (if atStart then !((c :: cs).takeWhile jsSpace).contains '\n' else true) &&
      bSafe (isLineTerm c) cs

/-! ### `extractCssClasses` — the scan `/\.([a-zA-Z_][\w-]*)/g`

The global `exec` loop resumes after each match; a match is a `.` followed
by a maximal class token.  Matches cannot overlap (a token contains no
`.`), so the scan reports every occurrence position. -/
/-- The list of captured class tokens, in scan order (the `Set` the source
builds is its deduplication). -/
def extractCssF : Nat → List Char → List (List Char)
  | 0, _ => []
  | _ + 1, [] => []
  | n + 1, c :: cs =>
    if c = '.' then
      match cs with
      | d :: ds =>
        if isAlphaUnd d then
          (d :: ds.takeWhile isWordHyphen) :: extractCssF n (ds.dropWhile isWordHyphen)
        else extractCssF n cs
      | [] => []
    else extractCssF n cs

/-- The scan with sufficient fuel: each step consumes at least one
character. -/
def extractCss (s : List Char) : List (List Char) := extractCssF (s.length + 1) s

/-- `extractCssClasses(content).size`: the number of distinct class tokens. -/
def cssClassCount (s : List Char) : Nat := (extractCss s).dedup.length

/-! ### The selector regex of the unused-rule remover

`/^(\s*)(\.([a-zA-Z_][\w-]*)[^{]*)\{?\s*$/`

After the leading whitespace, the dot and the greedy class token, the
greedy `[^{]*` stops at the first `{` or at the end; the anchored tail
`\{?\s*$` then succeeds only if the line ends there (or in whitespace
after a `{`), and no backtracked split can succeed when that fails. -/
/-- Group 3 of the selector regex when the line matches, else `none`. -/
def lineSelectorClass (line : List Char) : Option (List Char) :=
  match line.dropWhile jsSpace with
  | '.' :: rest =>
    match rest with
    | d :: ds =>
      if isAlphaUnd d then
        let cls := d :: ds.takeWhile isWordHyphen
        let after := ds.dropWhile isWordHyphen
        match after.dropWhile (fun c => !(c == '{')) with
        | [] => some cls
        | '{' :: r => if r.all jsSpace then some cls else none
        | _ => none
      else none
    | [] => none
  | _ => none

/-! ### The six usage patterns of `isClassUsedInJsFiles`

`pattern.test(content)` is an existence test, so each pattern is embedded
as membership in the regex's language via a small existence checker. -/
/-- One token of a linear pattern: a literal, a single character from a
class, a starred character class, a choice of literals, or `\b`. -/
inductive RTok where
  | lit : List Char → RTok
  | one : (Char → Bool) → RTok
  | many : (Char → Bool) → RTok
  | alts : List (List Char) → RTok
  | wb : RTok

/-- Size used for termination of the matcher. -/
def rtokSize : RTok → Nat
  | .lit l => l.length + 1
  | _ => 1

def rtoksSize (ts : List RTok) : Nat := (ts.map rtokSize).sum

/-- Does the token sequence match some decomposition starting exactly here?
`prev` is the character before the current position (for `\b`). -/
def matchSeqF : Nat → List RTok → Option Char → List Char → Bool
  | 0, _, _, _ => false
  | _ + 1, [], _, _ => true
  | n + 1, .lit [] :: ts', prev, s => matchSeqF n ts' prev s
  | n + 1, .lit (c :: l) :: ts', _, s =>
    match s with
    | d :: s' => c == d && matchSeqF n (.lit l :: ts') (some d) s'
    | [] => false
  | n + 1, .one p :: ts', _, s =>
    match s with
    | d :: s' => p d && matchSeqF n ts' (some d) s'
    | [] => false
  | n + 1, .many p :: ts', prev, s =>
    matchSeqF n ts' prev s ||
      (match s with
       | d :: s' => p d && matchSeqF n (.many p :: ts') (some d) s'
       | [] => false)
  | n + 1, .alts ls :: ts', prev, s =>
    ls.any (fun a =>
      startsWithL a s &&
        matchSeqF n ts' (match a.reverse with | c :: _ => some c | [] => prev)
          (s.drop a.length))
  | n + 1, .wb :: ts', prev, s =>
    (decide ((match prev with | some c => isWordChar c | none => false) ≠
             (match s with | d :: _ => isWordChar d | [] => false))) &&
      matchSeqF n ts' prev s

/-- The matcher with sufficient fuel: each step consumes a character or a
token. -/
def matchSeq (ts : List RTok) (prev : Option Char) (s : List Char) : Bool :=
  matchSeqF (s.length + rtoksSize ts + 1) ts prev s

/-- Does the token sequence match at any position of `s`? -/
def reSearchF : Nat → List RTok → Option Char → List Char → Bool
  | 0, _, _, _ => false
  | n + 1, ts, prev, s =>
    matchSeq ts prev s ||
      (match s with
       | [] => false
       | c :: cs => reSearchF n ts (some c) cs)

/-- The position scan with sufficient fuel. -/
def reSearch (ts : List RTok) (prev : Option Char) (s : List Char) : Bool :=
  reSearchF (s.length + 1) ts prev s

/-- `∃ match` over the whole string, as `RegExp.prototype.test` reports. -/
def reTest (ts : List RTok) (s : List Char) : Bool := reSearch ts none s

def squote : Char := '\x27'

def dquote : Char := '\x22'

def bquote : Char := '\x60'

/-- `['"\x60]` — the three JavaScript quote characters. -/
def isQuote (c : Char) : Bool := c == squote || c == dquote || c == bquote

/-- Pattern 1: `['"\x60]cls['"\x60]`. -/
def pat1 (cls : List Char) : List RTok := [.one isQuote, .lit cls, .one isQuote]

/-- Pattern 2: `className\s*=\s*['"\x60][^'"\x60]*\bcls\b[^'"\x60]*['"\x60]`. -/
def pat2 (cls : List Char) : List RTok :=
  [.lit (str "className"), .many jsSpace, .lit (str "="), .many jsSpace,
   .one isQuote, .many (fun c => !(isQuote c)), .wb, .lit cls, .wb,
   .many (fun c => !(isQuote c)), .one isQuote]

/-- Pattern 3: `className\s*=\s*\{[^}]*['"\x60][^'"\x60]*\bcls\b[^'"\x60]*['"\x60][^}]*\}`. -/
def pat3 (cls : List Char) : List RTok :=
  [.lit (str "className"), .many jsSpace, .lit (str "="), .many jsSpace,
   .lit (str "\x7b"), .many (fun c => !(c == '\x7d')),
   .one isQuote, .many (fun c => !(isQuote c)), .wb, .lit cls, .wb,
   .many (fun c => !(isQuote c)), .one isQuote,
   .many (fun c => !(c == '\x7d')), .lit (str "\x7d")]

/-- Pattern 4: `styles\.cls\b`. -/
def pat4 (cls : List Char) : List RTok := [.lit (str "styles." ++ cls), .wb]

/-- Pattern 5: `\[['"\x60]cls['"\x60]\]`. -/
def pat5 (cls : List Char) : List RTok :=
  [.lit (str "["), .one isQuote, .lit cls, .one isQuote, .lit (str "]")]

/-- Pattern 6: `classList\.(add|remove|toggle|contains)\s*\(['"\x60]cls['"\x60]\)`. -/
def pat6 (cls : List Char) : List RTok :=
  [.lit (str "classList."),
   .alts [str "add", str "remove", str "toggle", str "contains"],
   .many jsSpace, .lit (str "("), .one isQuote, .lit cls, .one isQuote,
   .lit (str ")")]

/-- Does any of the six usage patterns for `cls` match `content`?  The
source tests the patterns in order and short-circuits; for the existence
verdict the order is immaterial. -/
def patternsMatch (cls content : List Char) : Bool :=
  reTest (pat1 cls) content || reTest (pat2 cls) content ||
  reTest (pat3 cls) content || reTest (pat4 cls) content ||
  reTest (pat5 cls) content || reTest (pat6 cls) content

/-! ### `isClassUsedInJsFiles` and the unused-rule remover

The file system seen by the checker is a pure read function
`String → Option (List Char)`; `none` models a read that throws (the
`catch {}` in the source skips such a file).  The shared `fileCache`
(a `Map` keyed by path) is an association list threaded through the
stylesheet pass. -/
/-- The `fileCache` map: path to file text. -/
abbrev Cache := List (String × List Char)

def cacheGet (cache : Cache) (p : String) : Option (List Char) :=
  match cache with
  | [] => none
  | (q, c) :: rest => if q = p then some c else cacheGet rest p

/-- `isClassUsedInJsFiles(className, jsFiles, fileCache)`: walk the files,
reading through the cache, short-circuiting on the first pattern match;
a failed read skips the file and leaves the cache unchanged. -/
def isClassUsedGo (cls : List Char) (files : List String) (cache : Cache)
    (readF : String → Option (List Char)) : Bool × Cache :=
  match files with
  | [] => (false, cache)
  | f :: fs =>
    match cacheGet cache f with
    | some content =>
      if patternsMatch cls content then (true, cache)
      else isClassUsedGo cls fs cache readF
    | none =>
      match readF f with
      | some content =>
        if patternsMatch cls content then (true, (f, content) :: cache)
        else isClassUsedGo cls fs ((f, content) :: cache) readF
      | none => isClassUsedGo cls fs cache readF

/-- Modelled from the spec: the usage verdict "computed by reading each
file directly without a cache" (§4.4 of the spec), the reference point of
the read-through-cache refinement; an unreadable file is skipped. -/
def isClassUsedNoCache (cls : List Char) (files : List String)
    (readF : String → Option (List Char)) : Bool :=
  match files with
  | [] => false
  | f :: fs =>
    match readF f with
    | some content =>
      patternsMatch cls content || isClassUsedNoCache cls fs readF
    | none => isClassUsedNoCache cls fs readF

/-- The mutable state of the line loop in `removeUnusedCssClasses`. -/
structure CssSt where
  inRule : Bool
  brace : Int
  skip : Bool
  cache : Cache

/-- One pass of the `for (const line of lines)` loop of
`removeUnusedCssClasses`, returning the emitted lines and final state. -/
def cssLoop (js : List String) (readF : String → Option (List Char)) :
    List (List Char) → CssSt → List (List Char) × CssSt
  | [], st => ([], st)
  | line :: rest, st =>
    if st.inRule = false then
      match lineSelectorClass line with
      | some cls =>
        let hasO := line.contains '{'
        let hasC := line.contains '}'
        let used := isClassUsedGo cls js st.cache readF
        if used.1 = false then
          if hasO && hasC then
            cssLoop js readF rest { st with skip := false, cache := used.2 }
          else if hasO then
            cssLoop js readF rest
              { inRule := true, brace := 1, skip := true, cache := used.2 }
          else
            cssLoop js readF rest { st with cache := used.2 }
        else
          let next := if hasO && !hasC then
              { inRule := true, brace := 1, skip := false, cache := used.2 }
            else { st with cache := used.2 }
          let r := cssLoop js readF rest next
          (line :: r.1, r.2)
      | none =>
        let next := if line.contains '{' && !(line.contains '}') then
            { st with inRule := true, brace := 1, skip := false }
          else st
        let r := cssLoop js readF rest next
        (line :: r.1, r.2)
    else
      let brace2 := st.brace + (line.count '{' : Int) - (line.count '}' : Int)
      let next := if brace2 ≤ 0 then
          { st with inRule := false, skip := false, brace := brace2 }
        else { st with brace := brace2 }
      let r := cssLoop js readF rest next
      (if st.skip then r.1 else line :: r.1, r.2)

/-- Initial loop state (`inRuleBlock = false`, `braceCount = 0`,
`skipCurrentRule = false`, fresh `fileCache`). -/
def cssInit : CssSt := ⟨false, 0, false, []⟩

/-- `removeUnusedCssClasses(cssContent, jsFiles)` for string contents:
split into lines, run the state machine, join with newlines. -/
def removeUnusedCssClasses (cssContent : List Char) (jsFiles : List String)
    (readF : String → Option (List Char)) : List Char :=
  joinNl (cssLoop jsFiles readF (splitNl cssContent) cssInit).1

/-- Modelled from the spec: the same line loop with the cache-free verdict
of §4.4 (no shared file-content cache), the reference point of the
refinement claim. -/
def cssLoopNoCache (js : List String) (readF : String → Option (List Char)) :
    List (List Char) → Bool → Int → Bool → List (List Char)
  | [], _, _, _ => []
  | line :: rest, inRule, brace, skip =>
    if inRule = false then
      match lineSelectorClass line with
      | some cls =>
        let hasO := line.contains '{'
        let hasC := line.contains '}'
        if isClassUsedNoCache cls js readF = false then
          if hasO && hasC then cssLoopNoCache js readF rest false brace false
          else if hasO then cssLoopNoCache js readF rest true 1 true
          else cssLoopNoCache js readF rest false brace skip
        else
          if hasO && !hasC then line :: cssLoopNoCache js readF rest true 1 false
          else line :: cssLoopNoCache js readF rest false brace skip
      | none =>
        if line.contains '{' && !(line.contains '}') then
          line :: cssLoopNoCache js readF rest true 1 false
        else line :: cssLoopNoCache js readF rest false brace skip
    else
      let brace2 := brace + (line.count '{' : Int) - (line.count '}' : Int)
      let keep := if skip then ([] : List (List Char)) else [line]
      if brace2 ≤ 0 then keep ++ cssLoopNoCache js readF rest false brace2 false
      else keep ++ cssLoopNoCache js readF rest true brace2 skip

/-- Modelled from the spec: the unused-rule remover with direct reads. -/
def removeUnusedCssNoCache (cssContent : List Char) (jsFiles : List String)
    (readF : String → Option (List Char)) : List Char :=
  joinNl (cssLoopNoCache jsFiles readF (splitNl cssContent) false 0 false)

/-! ### The orchestrator `run`

The file system is modelled by a `World`: the `statSync` outcome for the
resolved project root, the `existsSync` outcome for `<root>/src`, the
results of the two `getAllFiles` traversals (directory enumeration is
external state, so its outcome is world-supplied), an initial content
store, and a per-path write outcome.  `run` threads the store: a
successful write replaces the stored content, so the stylesheet pass
reads the post-cleanup source files exactly as the real run does. -/
/-- The `err.code` values of the underlying Node.js calls. -/
inductive SysErr where
  | enoent | eacces | eisdir | enospc | erofs | eother
deriving DecidableEq, Repr

/-- One entry of `stats.errors` / `stats.warnings`: the stable code, the
human message, and the path carried in `details`. -/
structure ErrRec where
  code : String
  message : String
  detailPath : String
deriving DecidableEq, Repr

/-- The statistics record `run` returns. -/
structure Stats where
  consoleLogsRemoved : Int
  cssClassesRemoved : Int
  filesProcessed : Int
  errors : List ErrRec
  warnings : List ErrRec
deriving DecidableEq, Repr

/-- One record of `getAllFiles`'s per-directory error list. -/
structure ScanErr where
  path : String
  ty : String
deriving DecidableEq, Repr

/-- The external file-system state a run observes. -/
structure World where
  rootStat : Except SysErr Bool
  srcExists : Bool
  jsFiles : List String
  jsScanErrs : List ScanErr
  cssFiles : List String
  cssScanErrs : List ScanErr
  store : String → Except SysErr (List Char)
  writeErr : String → Option SysErr

/-- `validateProjectRoot`: the falsy/type guards and the `statSync`
classification.  `path.resolve` is abstracted: the model treats the given
root as already resolved. -/
def validateProjectRoot (root : String) (w : World) : Except ErrRec String :=
  if root = "" then
    .error ⟨"INVALID_PROJECT_ROOT", "Project root path is required", root⟩
  else
    match w.rootStat with
    | .ok true => .ok root
    | .ok false =>
      .error ⟨"INVALID_PROJECT_ROOT", "Project root must be a directory", root⟩
    | .error .enoent =>
      .error ⟨"INVALID_PROJECT_ROOT", "Project root directory does not exist", root⟩
    | .error .eacces =>
      .error ⟨"PERMISSION_DENIED", "Permission denied accessing project root", root⟩
    | .error _ =>
      .error ⟨"INVALID_PROJECT_ROOT", "Failed to access project root", root⟩

/-- `safeReadFile` against a store: the `readFileSync` error mapping. -/
def safeReadFileE (store : String → Except SysErr (List Char)) (p : String) :
    Except ErrRec (List Char) :=
  match store p with
  | .ok c => .ok c
  | .error .enoent => .error ⟨"FILE_READ_ERROR", "File not found: " ++ p, p⟩
  | .error .eacces =>
    .error ⟨"PERMISSION_DENIED", "Permission denied reading file: " ++ p, p⟩
  | .error .eisdir =>
    .error ⟨"FILE_READ_ERROR", "Path is a directory, not a file: " ++ p, p⟩
  | .error _ => .error ⟨"FILE_READ_ERROR", "Failed to read file: " ++ p, p⟩

/-- `safeWriteFile`'s outcome: `none` on success, otherwise the mapped
`writeFileSync` error. -/
def safeWriteFileE (w : World) (p : String) : Option ErrRec :=
  match w.writeErr p with
  | none => none
  | some .eacces =>
    some ⟨"PERMISSION_DENIED", "Permission denied writing to file: " ++ p, p⟩
  | some .enospc =>
    some ⟨"FILE_WRITE_ERROR", "No space left on device when writing: " ++ p, p⟩
  | some .erofs =>
    some ⟨"FILE_WRITE_ERROR", "Read-only file system, cannot write: " ++ p, p⟩
  | some _ => some ⟨"FILE_WRITE_ERROR", "Failed to write file: " ++ p, p⟩

/-- Mutable state of the two per-file loops: statistics plus the evolving
on-disk store. -/
structure RunSt where
  stats : Stats
  store : String → Except SysErr (List Char)

/-- The reads `isClassUsedInJsFiles` performs, as the stylesheet pass sees
them: a throwing read is `none`. -/
def storeRead (store : String → Except SysErr (List Char)) :
    String → Option (List Char) :=
  fun p => match store p with
  | .ok c => some c
  | .error _ => none

/-- The body of the source-file loop of `run`. -/
def jsStep (w : World) (st : RunSt) (f : String) : RunSt :=
  match safeReadFileE st.store f with
  | .error e => { st with stats.errors := st.stats.errors ++ [e] }
  | .ok content =>
    let cleaned := removeConsoleLogs content
    if cleaned = content then st
    else
      match safeWriteFileE w f with
      | some e => { st with stats.errors := st.stats.errors ++ [e] }
      | none =>
        { stats := { st.stats with
            consoleLogsRemoved := st.stats.consoleLogsRemoved +
              ((countTok content : Int) - (countTok cleaned : Int)),
            filesProcessed := st.stats.filesProcessed + 1 },
          store := fun p => if p = f then .ok cleaned else st.store p }

/-- The body of the stylesheet loop of `run`. -/
def cssStep (w : World) (st : RunSt) (f : String) : RunSt :=
  match safeReadFileE st.store f with
  | .error e => { st with stats.errors := st.stats.errors ++ [e] }
  | .ok content =>
    let classesBefore := cssClassCount content
    let cleaned := removeUnusedCssClasses content w.jsFiles (storeRead st.store)
    let classesAfter := cssClassCount cleaned
    let removed := (classesBefore : Int) - (classesAfter : Int)
    if cleaned = content then st
    else
      match safeWriteFileE w f with
      | some e => { st with stats.errors := st.stats.errors ++ [e] }
      | none =>
        { stats := { st.stats with
            cssClassesRemoved := st.stats.cssClassesRemoved + removed,
            filesProcessed := st.stats.filesProcessed + 1 },
          store := fun p => if p = f then .ok cleaned else st.store p }

/-- A `DIRECTORY_SCAN_ERROR` warning record. -/
def scanWarn (e : ScanErr) : ErrRec :=
  ⟨"DIRECTORY_SCAN_ERROR", "Failed to scan directory: " ++ e.path, e.path⟩

/-- The empty statistics record `run` starts from. -/
def stats0 : Stats := ⟨0, 0, 0, [], []⟩

/-- `run(projectRoot)`: validation, the missing-`src` warning, the scan
warnings, then the two per-file loops. -/
def run (root : String) (w : World) : RunSt :=
  match validateProjectRoot root w with
  | .error e => ⟨{ stats0 with errors := [e] }, w.store⟩
  | .ok resolved =>
    if w.srcExists = false then
      ⟨{ stats0 with warnings :=
          [⟨"SRC_DIR_NOT_FOUND",
            "Source directory not found: " ++ resolved ++ "/src",
            resolved ++ "/src"⟩] }, w.store⟩
    else
      let warns := (w.jsScanErrs ++ w.cssScanErrs).map scanWarn
      let st0 : RunSt := ⟨{ stats0 with warnings := warns }, w.store⟩
      let st1 := w.jsFiles.foldl (jsStep w) st0
      w.cssFiles.foldl (cssStep w) st1

/-! ## Theorems -/

theorem dwLen {α : Type} (p : α → Bool) (l : List α) :
    (l.dropWhile p).length ≤ l.length := by
  induction l with
  | nil => simp [List.dropWhile]
  | cons c cs ih =>
    simp only [List.dropWhile]
    split
    · exact Nat.le_succ_of_le ih
    · simp

theorem twLen {α : Type} (p : α → Bool) (l : List α) :
    (l.takeWhile p).length ≤ l.length := by
  induction l with
  | nil => simp [List.takeWhile]
  | cons c cs ih =>
    simp only [List.takeWhile]
    split
    · simpa using ih
    · simp

theorem inner2Len {s r : List Char} (h : inner2 s = some r) :
    r.length + 2 ≤ s.length := by
  match s with
  | [] => simp [inner2] at h
  | c :: cs =>
    by_cases hc : c = '('
    · subst hc
      simp only [inner2] at h
      split at h
      · rename_i r2 heq
        have h1 : (cs.dropWhile notParen).length ≤ cs.length := dwLen _ cs
        rw [heq] at h1
        simp at h1 h
        subst h
        simp
        omega
      · exact absurd h (by simp)
    · rw [show inner2 (c :: cs) = none by
        cases c <;> simp_all [inner2]] at h
      exact absurd h (by simp)

theorem inner1LoopFLen : ∀ (n : Nat) (s : List Char),
    (inner1LoopF n s).length ≤ s.length := by
  intro n
  induction n with
  | zero => intro s; simp [inner1LoopF]
  | succ n ih =>
    intro s
    match s with
    | [] => simp [inner1LoopF]
    | c :: cs =>
      rw [inner1LoopF]
      split
      · have h1 := ih (cs.dropWhile notParen)
        have h2 := dwLen notParen cs
        simp
        omega
      · split
        · split
          · rename_i r heq
            have h1 := ih r
            have h2 := inner2Len heq
            simp at h2 ⊢
            omega
          · simp
        · simp

theorem inner1LoopLen (s : List Char) : (inner1Loop s).length ≤ s.length :=
  inner1LoopFLen (s.length + 1) s

theorem group1Len {s r : List Char} (h : group1 s = some r) :
    r.length + 2 ≤ s.length := by
  match s with
  | [] => simp [group1] at h
  | c :: cs =>
    by_cases hc : c = '('
    · subst hc
      simp only [group1] at h
      split at h
      · rename_i r2 heq
        have h1 : (inner1Loop cs).length ≤ cs.length := inner1LoopLen cs
        rw [heq] at h1
        simp at h1 h
        subst h
        simp
        omega
      · exact absurd h (by simp)
    · rw [show group1 (c :: cs) = none by
        cases c <;> simp_all [group1]] at h
      exact absurd h (by simp)

theorem argsLoopFLen : ∀ (n : Nat) (s : List Char),
    (argsLoopF n s).length ≤ s.length := by
  intro n
  induction n with
  | zero => intro s; simp [argsLoopF]
  | succ n ih =>
    intro s
    match s with
    | [] => simp [argsLoopF]
    | c :: cs =>
      rw [argsLoopF]
      split
      · have h1 := ih (cs.dropWhile notParen)
        have h2 := dwLen notParen cs
        simp
        omega
      · split
        · split
          · rename_i r heq
            have h1 := ih r
            have h2 := group1Len heq
            simp at h2 ⊢
            omega
          · simp
        · simp

theorem argsLoopLen (s : List Char) : (argsLoop s).length ≤ s.length :=
  argsLoopFLen (s.length + 1) s

theorem expectCharLen {c : Char} {s t : List Char} (h : expectChar c s = some t) :
    t.length + 1 = s.length := by
  match s with
  | [] => simp [expectChar] at h
  | d :: t' =>
    simp only [expectChar] at h
    split at h
    · simp at h
      subst h
      simp
    · exact absurd h (by simp)

theorem eatCharLen (c : Char) (s : List Char) : (eatChar c s).length ≤ s.length := by
  match s with
  | [] => simp [eatChar]
  | d :: t =>
    simp only [eatChar]
    split <;> simp

theorem dropTokLen {s r : List Char} (h : dropTok s = some r) :
    r.length + tok.length = s.length := by
  simp only [dropTok] at h
  split at h
  · rename_i hsw
    simp at h
    subst h
    have hle : tok.length ≤ s.length := by
      generalize tok = p at hsw ⊢
      induction p generalizing s with
      | nil => simp
      | cons p ps ih =>
        match s with
        | [] => simp [startsWithL] at hsw
        | c :: cs =>
          simp [startsWithL] at hsw
          have := ih hsw.2
          simp
          omega
    simp
    omega
  · exact absurd h (by simp)

theorem matchCallLen {s r : List Char} (h : matchCall s = some r) :
    r.length < s.length := by
  unfold matchCall at h
  cases hdrop : dropTok s with
  | none => rw [hdrop] at h; simp at h
  | some r1 =>
    rw [hdrop] at h
    dsimp only at h
    cases h2 : expectChar '(' (r1.dropWhile jsSpace) with
    | none => rw [h2] at h; simp at h
    | some r3 =>
      rw [h2] at h
      dsimp only at h
      cases h3 : expectChar ')' (argsLoop r3) with
      | none => rw [h3] at h; simp at h
      | some r5 =>
        rw [h3] at h
        simp at h
        subst h
        have e1 := dropTokLen hdrop
        have e2 := expectCharLen h2
        have e3 := expectCharLen h3
        have l1 := dwLen jsSpace r1
        have l2 := argsLoopLen r3
        have l3 := dwLen jsSpace r5
        have l4 := eatCharLen ';' (r5.dropWhile jsSpace)
        have l5 := dwLen jsSpace (eatChar ';' (r5.dropWhile jsSpace))
        have l6 := eatCharLen '\n' ((eatChar ';' (r5.dropWhile jsSpace)).dropWhile jsSpace)
        simp [tok, str] at e1
        omega

/-! ### The blank-line replace `/^\s*\n/gm → "\n"`

At a line start (`^` with the `m` flag) the engine greedily takes the
whitespace run and backtracks so that the match ends at the last `\n`
inside that run; the match is replaced by a single `\n` and scanning
resumes right after it (a position that follows a `\n`, hence again a
line start). -/
theorem twLtOfMem {α : Type} {p : α → Bool} {l : List α} {c : α}
    (hc : c ∈ l) (hp : p c = false) : (l.takeWhile p).length < l.length := by
  induction l with
  | nil => simp at hc
  | cons d ds ih =>
    simp only [List.takeWhile]
    cases hd : p d with
    | false => simp
    | true =>
      rcases List.mem_cons.mp hc with h1 | h1
      · subst h1
        rw [hd] at hp
        simp at hp
      · have := ih h1
        simp
        omega

theorem matchBLen {s r : List Char} (h : matchB s = some r) : r.length < s.length := by
  simp only [matchB] at h
  split at h
  · rename_i hin
    simp at h
    subst h
    have hmem : '\n' ∈ (s.takeWhile jsSpace).reverse := by
      simp
      simpa using hin
    have h1 : ((s.takeWhile jsSpace).reverse.takeWhile (fun c => !(c == '\n'))).length <
        (s.takeWhile jsSpace).reverse.length := twLtOfMem hmem (by simp)
    have h2 : (s.takeWhile jsSpace).length + (s.dropWhile jsSpace).length = s.length := by
      have h3 : s.takeWhile jsSpace ++ s.dropWhile jsSpace = s :=
        List.takeWhile_append_dropWhile jsSpace s
      have h4 := congrArg List.length h3
      rw [List.length_append] at h4
      exact h4
    simp at h1 ⊢
    omega
  · exact absurd h (by simp)

/-! ## Helper lemmas -/
/-! ### Fuel irrelevance and natural unfolding equations for the scanners -/
theorem inner1LoopFCongr : ∀ (n m : Nat) (s : List Char), s.length < n →
    s.length < m → inner1LoopF n s = inner1LoopF m s := by
  intro n
  induction n with
  | zero => intro m s hn _; omega
  | succ n ih =>
    intro m s hn hm
    match m with
    | 0 => omega
    | m + 1 =>
      match s with
      | [] => rfl
      | c :: cs =>
        rw [inner1LoopF, inner1LoopF]
        simp only [List.length_cons] at hn hm
        split
        · have hd := dwLen notParen cs
          exact ih _ _ (by omega) (by omega)
        · split
          · split
            · rename_i r heq
              have h2 := inner2Len heq
              simp at h2
              exact ih _ _ (by omega) (by omega)
            · rfl
          · rfl

theorem inner1LoopCons (c : Char) (cs : List Char) : inner1Loop (c :: cs) =
    if notParen c then inner1Loop (cs.dropWhile notParen)
    else if c == '(' then
      match inner2 (c :: cs) with
      | some r => inner1Loop r
      | none => c :: cs
    else c :: cs := by
  rw [inner1Loop]
  show inner1LoopF (cs.length + 1 + 1) (c :: cs) = _
  rw [inner1LoopF]
  split
  · exact inner1LoopFCongr _ _ _ (by have := dwLen notParen cs; omega) (by omega)
  · split
    · split
      · rename_i r heq
        have h2 := inner2Len heq
        simp at h2
        exact inner1LoopFCongr _ _ _ (by omega) (by omega)
      · rfl
    · rfl

theorem argsLoopFCongr : ∀ (n m : Nat) (s : List Char), s.length < n →
    s.length < m → argsLoopF n s = argsLoopF m s := by
  intro n
  induction n with
  | zero => intro m s hn _; omega
  | succ n ih =>
    intro m s hn hm
    match m with
    | 0 => omega
    | m + 1 =>
      match s with
      | [] => rfl
      | c :: cs =>
        rw [argsLoopF, argsLoopF]
        simp only [List.length_cons] at hn hm
        split
        · have hd := dwLen notParen cs
          exact ih _ _ (by omega) (by omega)
        · split
          · split
            · rename_i r heq
              have h2 := group1Len heq
              simp at h2
              exact ih _ _ (by omega) (by omega)
            · rfl
          · rfl

theorem argsLoopCons (c : Char) (cs : List Char) : argsLoop (c :: cs) =
    if notParen c then argsLoop (cs.dropWhile notParen)
    else if c == '(' then
      match group1 (c :: cs) with
      | some r => argsLoop r
      | none => c :: cs
    else c :: cs := by
  rw [argsLoop]
  show argsLoopF (cs.length + 1 + 1) (c :: cs) = _
  rw [argsLoopF]
  split
  · exact argsLoopFCongr _ _ _ (by have := dwLen notParen cs; omega) (by omega)
  · split
    · split
      · rename_i r heq
        have h2 := group1Len heq
        simp at h2
        exact argsLoopFCongr _ _ _ (by omega) (by omega)
      · rfl
    · rfl

theorem scanCallsFCongr : ∀ (n m : Nat) (s : List Char), s.length < n →
    s.length < m → scanCallsF n s = scanCallsF m s := by
  intro n
  induction n with
  | zero => intro m s hn _; omega
  | succ n ih =>
    intro m s hn hm
    match m with
    | 0 => omega
    | m + 1 =>
      match s with
      | [] => rfl
      | c :: cs =>
        rw [scanCallsF, scanCallsF]
        simp only [List.length_cons] at hn hm
        split
        · rename_i rest heq
          have h2 := matchCallLen heq
          simp at h2
          exact ih _ _ (by omega) (by omega)
        · rw [ih m cs (by omega) (by omega)]

theorem scanCallsNil : scanCalls [] = [] := rfl

theorem scanCallsCons (c : Char) (cs : List Char) : scanCalls (c :: cs) =
    match matchCall (c :: cs) with
    | some rest => scanCalls rest
    | none => c :: scanCalls cs := by
  rw [scanCalls]
  show scanCallsF (cs.length + 1 + 1) (c :: cs) = _
  rw [scanCallsF]
  split
  · rename_i rest heq
    have h2 := matchCallLen heq
    simp at h2
    exact scanCallsFCongr _ _ _ (by omega) (by omega)
  · rw [scanCallsFCongr _ (cs.length + 1) cs (by omega) (by omega)]
    rfl

theorem goBFCongr : ∀ (n m : Nat) (a : Bool) (s : List Char), s.length < n →
    s.length < m → goBF n a s = goBF m a s := by
  intro n
  induction n with
  | zero => intro m a s hn _; omega
  | succ n ih =>
    intro m a s hn hm
    match m with
    | 0 => omega
    | m + 1 =>
      match s with
      | [] => rfl
      | c :: cs =>
        rw [goBF, goBF]
        simp only [List.length_cons] at hn hm
        cases a with
        | false =>
          simp only [Bool.false_eq_true, if_false]
          rw [ih m (isLineTerm c) cs (by omega) (by omega)]
        | true =>
          simp only [if_pos rfl]
          cases heq : matchB (c :: cs) with
          | none =>
            simp only [Option.elim]
            rw [ih m (isLineTerm c) cs (by omega) (by omega)]
          | some rest =>
            have h2 := matchBLen heq
            simp at h2
            simp only [Option.elim]
            rw [ih m true rest (by omega) (by omega)]
            simp

theorem goBNil (a : Bool) : goB a [] = [] := rfl

theorem goBTrue (c : Char) (cs : List Char) : goB true (c :: cs) =
    match matchB (c :: cs) with
    | some rest => '\n' :: goB true rest
    | none => c :: goB (isLineTerm c) cs := by
  rw [goB]
  show goBF (cs.length + 1 + 1) true (c :: cs) = _
  rw [goBF]
  simp only [if_pos rfl]
  cases heq : matchB (c :: cs) with
  | none =>
    simp only [Option.elim]
    rw [goBFCongr (cs.length + 1) (cs.length + 1) (isLineTerm c) cs (by omega) (by omega)]
    rfl
  | some rest =>
    have h2 := matchBLen heq
    simp at h2
    simp only [Option.elim]
    rw [goBFCongr (cs.length + 1) (rest.length + 1) true rest (by omega) (by omega)]
    rfl

theorem goBFalse (c : Char) (cs : List Char) : goB false (c :: cs) =
    c :: goB (isLineTerm c) cs := by
  rw [goB]
  show goBF (cs.length + 1 + 1) false (c :: cs) = _
  rw [goBF]
  simp only [Bool.false_eq_true, if_false]
  rw [goBFCongr (cs.length + 1) (cs.length + 1) (isLineTerm c) cs (by omega) (by omega)]
  rfl

theorem goCFCongr : ∀ (n m : Nat) (s : List Char), s.length < n →
    s.length < m → goCF n s = goCF m s := by
  intro n
  induction n with
  | zero => intro m s hn _; omega
  | succ n ih =>
    intro m s hn hm
    match m with
    | 0 => omega
    | m + 1 =>
      match s with
      | [] => rfl
      | c :: cs =>
        rw [goCF, goCF]
        simp only [List.length_cons] at hn hm
        split
        · rename_i hrun
          have hd : ((c :: cs).dropWhile (fun d => d == '\n')).length ≤ cs.length := by
            by_cases hc : c == '\n'
            · simp only [List.dropWhile_cons, hc, if_pos]
              have := dwLen (fun d => d == '\n') cs
              simpa using this
            · simp [List.takeWhile_cons, hc] at hrun
          rw [ih m _ (by omega) (by omega)]
        · rw [ih m cs (by omega) (by omega)]

theorem goCNil : goC [] = [] := rfl

theorem goCCons (c : Char) (cs : List Char) : goC (c :: cs) =
    (if 3 ≤ ((c :: cs).takeWhile (fun d => d == '\n')).length then
      '\n' :: '\n' :: goC ((c :: cs).dropWhile (fun d => d == '\n'))
    else c :: goC cs) := by
  rw [goC]
  show goCF (cs.length + 1 + 1) (c :: cs) = _
  rw [goCF]
  split
  · rename_i hrun
    have hd : ((c :: cs).dropWhile (fun d => d == '\n')).length ≤ cs.length := by
      by_cases hc : c == '\n'
      · simp only [List.dropWhile_cons, hc, if_pos]
        have := dwLen (fun d => d == '\n') cs
        simpa using this
      · simp [List.takeWhile_cons, hc] at hrun
    rw [goCFCongr (cs.length + 1)
      (((c :: cs).dropWhile (fun d => d == '\n')).length + 1) _ (by omega) (by omega)]
    rfl
  · rw [goCFCongr _ (cs.length + 1) cs (by omega) (by omega)]
    rfl

theorem countTokFCongr : ∀ (n m : Nat) (s : List Char), s.length < n →
    s.length < m → countTokF n s = countTokF m s := by
  intro n
  induction n with
  | zero => intro m s hn _; omega
  | succ n ih =>
    intro m s hn hm
    match m with
    | 0 => omega
    | m + 1 =>
      match s with
      | [] => rfl
      | c :: cs =>
        rw [countTokF, countTokF]
        simp only [List.length_cons] at hn hm
        split
        · have hd : ((c :: cs).drop tok.length).length ≤ cs.length := by
            simp [tok, str]
          rw [ih m _ (by omega) (by omega)]
        · rw [ih m cs (by omega) (by omega)]

theorem countTokNil : countTok [] = 0 := rfl

theorem countTokCons (c : Char) (cs : List Char) : countTok (c :: cs) =
    (if startsWithL tok (c :: cs) then 1 + countTok ((c :: cs).drop tok.length)
     else countTok cs) := by
  rw [countTok]
  show countTokF (cs.length + 1 + 1) (c :: cs) = _
  rw [countTokF]
  split
  · have hd : ((c :: cs).drop tok.length).length ≤ cs.length := by
      simp [tok, str]
    rw [countTokFCongr (cs.length + 1) (((c :: cs).drop tok.length).length + 1)
      ((c :: cs).drop tok.length) (by omega) (by omega)]
    rfl
  · rw [countTokFCongr _ (cs.length + 1) cs (by omega) (by omega)]
    rfl

theorem extractCssFCongr : ∀ (n m : Nat) (s : List Char), s.length < n →
    s.length < m → extractCssF n s = extractCssF m s := by
  intro n
  induction n with
  | zero => intro m s hn _; omega
  | succ n ih =>
    intro m s hn hm
    match m with
    | 0 => omega
    | m + 1 =>
      match s with
      | [] => rfl
      | c :: cs =>
        rw [extractCssF.eq_def, extractCssF.eq_def]
        dsimp only
        simp only [List.length_cons] at hn hm
        split
        · match cs with
          | [] => rfl
          | d :: ds =>
            dsimp only
            split
            · have hd := dwLen isWordHyphen ds
              simp only [List.length_cons] at hn hm
              rw [ih m (ds.dropWhile isWordHyphen) (by omega) (by omega)]
            · simp only [List.length_cons] at hn hm
              rw [ih m (d :: ds) (by simp; omega) (by simp; omega)]
        · rw [ih m cs (by omega) (by omega)]

theorem extractCssNil : extractCss [] = [] := rfl

theorem extractCssCons (c : Char) (cs : List Char) : extractCss (c :: cs) =
    (if c = '.' then
      match cs with
      | d :: ds =>
        if isAlphaUnd d then
          (d :: ds.takeWhile isWordHyphen) :: extractCss (ds.dropWhile isWordHyphen)
        else extractCss cs
      | [] => []
    else extractCss cs) := by
  rw [extractCss]
  show extractCssF (cs.length + 1 + 1) (c :: cs) = _
  rw [extractCssF.eq_def]
  dsimp only
  split
  · match cs with
    | [] => rfl
    | d :: ds =>
      dsimp only
      split
      · have hd := dwLen isWordHyphen ds
        rw [extractCssFCongr ((d :: ds).length + 1)
          ((ds.dropWhile isWordHyphen).length + 1) (ds.dropWhile isWordHyphen)
          (by simp; omega) (by omega)]
        rfl
      · rfl
  · rw [extractCssFCongr _ (cs.length + 1) cs (by omega) (by omega)]
    rfl

theorem takeWhileAll {p : Char → Bool} : ∀ {l : List Char}, (∀ c ∈ l, p c = true) →
    l.takeWhile p = l := by
  intro l
  induction l with
  | nil => intro _; rfl
  | cons c cs ih =>
    intro h
    rw [List.takeWhile_cons, if_pos (h c (by simp))]
    rw [ih (fun d hd => h d (by simp [hd]))]

theorem dropWhileAll {p : Char → Bool} : ∀ {l : List Char}, (∀ c ∈ l, p c = true) →
    l.dropWhile p = [] := by
  intro l
  induction l with
  | nil => intro _; rfl
  | cons c cs ih =>
    intro h
    rw [List.dropWhile_cons, if_pos (h c (by simp))]
    exact ih (fun d hd => h d (by simp [hd]))

theorem takeWhileMid {p : Char → Bool} {x : Char} (hx : p x = false) :
    ∀ (l t : List Char), (∀ c ∈ l, p c = true) →
    (l ++ x :: t).takeWhile p = l ∧ (l ++ x :: t).dropWhile p = x :: t := by
  intro l
  induction l with
  | nil =>
    intro t _
    constructor
    · simp [List.takeWhile_cons, hx]
    · simp [List.dropWhile_cons, hx]
  | cons c cs ih =>
    intro t h
    have hc : p c = true := h c (by simp)
    have := ih t (fun d hd => h d (by simp [hd]))
    constructor
    · simp only [List.cons_append, List.takeWhile_cons, hc]
      simp [this.1]
    · simp only [List.cons_append, List.dropWhile_cons, hc]
      simp [this.2]

theorem noNlNotMem {l : List Char} (h : l.contains '\n' = false) : ∀ c ∈ l, (!(c == '\n')) = true := by
  intro c hc
  simp only [List.contains, List.elem_eq_mem, decide_eq_false_iff_not] at h
  simp
  intro he
  exact h (he ▸ hc)

theorem splitNlSingle {l : List Char} (h : l.contains '\n' = false) :
    splitNl l = [l] := by
  induction l with
  | nil => rfl
  | cons c cs ih =>
    simp only [List.contains_cons, Bool.or_eq_false_iff] at h
    have hc : ¬(c = '\n') := by
      intro he
      subst he
      simp at h
    rw [splitNl, if_neg hc, ih h.2]

theorem splitNlNe : ∀ s : List Char, splitNl s ≠ [] := by
  intro s
  induction s with
  | nil => simp [splitNl]
  | cons c cs ih =>
    rw [splitNl]
    split
    · simp
    · split
      · simp
      · simp

theorem splitNlCons (l : List Char) (rest : List Char) (h : l.contains '\n' = false) :
    splitNl (l ++ '\n' :: rest) = l :: splitNl rest := by
  induction l with
  | nil =>
    simp only [List.nil_append]
    rw [splitNl, if_pos rfl]
  | cons c cs ih =>
    simp only [List.contains_cons, Bool.or_eq_false_iff] at h
    have hc : ¬(c = '\n') := by
      intro he
      subst he
      simp at h
    simp only [List.cons_append]
    rw [splitNl, if_neg hc, ih h.2]

theorem splitNlJoinNl : ∀ ls : List (List Char), ls ≠ [] →
    (∀ l ∈ ls, l.contains '\n' = false) → splitNl (joinNl ls) = ls := by
  intro ls
  induction ls with
  | nil => intro h; exact absurd rfl h
  | cons l ls ih =>
    intro _ h
    match ls with
    | [] =>
      rw [joinNl]
      exact splitNlSingle (h l (by simp))
    | l2 :: ls' =>
      rw [joinNl]
      rw [splitNlCons l _ (h l (by simp))]
      rw [ih (by simp) (fun x hx => h x (by simp [hx]))]

/-! ### Scanning over appended runs and groups -/
theorem dwAppendAll {p : Char → Bool} : ∀ {l : List Char}, l.all p = true →
    ∀ t : List Char, (l ++ t).dropWhile p = t.dropWhile p := by
  intro l
  induction l with
  | nil => intro _ t; rfl
  | cons c cs ih =>
    intro h t
    simp only [List.all_cons, Bool.and_eq_true] at h
    simp only [List.cons_append, List.dropWhile_cons, h.1, if_pos]
    exact ih h.2 t

theorem startsWithLSelf : ∀ (p t : List Char), startsWithL p (p ++ t) = true := by
  intro p
  induction p with
  | nil => intro t; rfl
  | cons c cs ih =>
    intro t
    rw [List.cons_append, startsWithL]
    simp [ih t]

theorem dropTokApp (t : List Char) : dropTok (tok ++ t) = some t := by
  rw [dropTok, if_pos (startsWithLSelf tok t)]
  congr 1

theorem notParenRp : notParen ')' = false := by decide

theorem notParenLp : notParen '(' = false := by decide

theorem inner1LoopStop (r : List Char) : inner1Loop (')' :: r) = ')' :: r := by
  rw [inner1LoopCons, notParenRp]
  simp

theorem inner1LoopRun {v : List Char} (hv : v.all notParen = true) (r : List Char) :
    inner1Loop (v ++ ')' :: r) = ')' :: r := by
  match v with
  | [] => exact inner1LoopStop r
  | c :: v' =>
    simp only [List.all_cons, Bool.and_eq_true] at hv
    rw [List.cons_append, inner1LoopCons, if_pos hv.1]
    rw [dwAppendAll hv.2]
    rw [List.dropWhile_cons, notParenRp]
    simp only [Bool.false_eq_true, if_false]
    exact inner1LoopStop r

theorem inner2Grp {x : List Char} (hx : x.all notParen = true) (t : List Char) :
    inner2 ('(' :: (x ++ ')' :: t)) = some t := by
  rw [inner2, dwAppendAll hx, List.dropWhile_cons, notParenRp]
  simp

theorem inner2Bad {x : List Char} (hx : x.all notParen = true) (t : List Char) :
    inner2 ('(' :: (x ++ '(' :: t)) = none := by
  rw [inner2, dwAppendAll hx, List.dropWhile_cons, notParenLp]
  simp

theorem inner1LoopGrp {v : List Char} (hv : v.all notParen = true) (w t : List Char)
    (hw : inner2 ('(' :: w) = some t) : inner1Loop (v ++ '(' :: w) = inner1Loop t := by
  match v with
  | [] =>
    rw [List.nil_append, inner1LoopCons, notParenLp]
    simp only [Bool.false_eq_true, if_false, hw]
    simp
  | c :: v' =>
    simp only [List.all_cons, Bool.and_eq_true] at hv
    rw [List.cons_append, inner1LoopCons, if_pos hv.1]
    rw [dwAppendAll hv.2]
    rw [List.dropWhile_cons, notParenLp]
    simp only [Bool.false_eq_true, if_false]
    rw [inner1LoopCons, notParenLp]
    simp only [Bool.false_eq_true, if_false, hw]
    simp

theorem inner1LoopBad {v : List Char} (hv : v.all notParen = true) (w : List Char)
    (hw : inner2 ('(' :: w) = none) : inner1Loop (v ++ '(' :: w) = '(' :: w := by
  match v with
  | [] =>
    rw [List.nil_append, inner1LoopCons, notParenLp]
    simp only [Bool.false_eq_true, if_false, hw]
    simp
  | c :: v' =>
    simp only [List.all_cons, Bool.and_eq_true] at hv
    rw [List.cons_append, inner1LoopCons, if_pos hv.1]
    rw [dwAppendAll hv.2]
    rw [List.dropWhile_cons, notParenLp]
    simp only [Bool.false_eq_true, if_false]
    rw [inner1LoopCons, notParenLp]
    simp only [Bool.false_eq_true, if_false, hw]
    simp

theorem group1Of {w t : List Char} (h : inner1Loop w = ')' :: t) :
    group1 ('(' :: w) = some t := by
  rw [group1, h]
  exact rfl

theorem group1NoneOf {w t : List Char} (h : inner1Loop w = '(' :: t) :
    group1 ('(' :: w) = none := by
  rw [group1, h]
  exact rfl

theorem argsLoopStop (r : List Char) : argsLoop (')' :: r) = ')' :: r := by
  rw [argsLoopCons, notParenRp]
  simp

theorem argsLoopRun {u : List Char} (hu : u.all notParen = true) (r : List Char) :
    argsLoop (u ++ ')' :: r) = ')' :: r := by
  match u with
  | [] => exact argsLoopStop r
  | c :: u' =>
    simp only [List.all_cons, Bool.and_eq_true] at hu
    rw [List.cons_append, argsLoopCons, if_pos hu.1]
    rw [dwAppendAll hu.2]
    rw [List.dropWhile_cons, notParenRp]
    simp only [Bool.false_eq_true, if_false]
    exact argsLoopStop r

theorem argsLoopGrp {u : List Char} (hu : u.all notParen = true) (w t : List Char)
    (hw : group1 ('(' :: w) = some t) : argsLoop (u ++ '(' :: w) = argsLoop t := by
  match u with
  | [] =>
    rw [List.nil_append, argsLoopCons, notParenLp]
    simp only [Bool.false_eq_true, if_false, hw]
    simp
  | c :: u' =>
    simp only [List.all_cons, Bool.and_eq_true] at hu
    rw [List.cons_append, argsLoopCons, if_pos hu.1]
    rw [dwAppendAll hu.2]
    rw [List.dropWhile_cons, notParenLp]
    simp only [Bool.false_eq_true, if_false]
    rw [argsLoopCons, notParenLp]
    simp only [Bool.false_eq_true, if_false, hw]
    simp

theorem argsLoopBad {u : List Char} (hu : u.all notParen = true) (w : List Char)
    (hw : group1 ('(' :: w) = none) : argsLoop (u ++ '(' :: w) = '(' :: w := by
  match u with
  | [] =>
    rw [List.nil_append, argsLoopCons, notParenLp]
    simp only [Bool.false_eq_true, if_false, hw]
    simp
  | c :: u' =>
    simp only [List.all_cons, Bool.and_eq_true] at hu
    rw [List.cons_append, argsLoopCons, if_pos hu.1]
    rw [dwAppendAll hu.2]
    rw [List.dropWhile_cons, notParenLp]
    simp only [Bool.false_eq_true, if_false]
    rw [argsLoopCons, notParenLp]
    simp only [Bool.false_eq_true, if_false, hw]
    simp

theorem jsSpaceLp : jsSpace '(' = false := by decide

theorem jsSpaceLpFact : List.dropWhile jsSpace ('(' :: (args : List Char)) =
    '(' :: args := by
  rw [List.dropWhile_cons, jsSpaceLp]
  simp

theorem matchCallOf (args : List Char)
    (h : argsLoop (args ++ [')', ';']) = [')', ';']) :
    matchCall (tok ++ '(' :: (args ++ [')', ';'])) = some [] := by
  rw [matchCall, dropTokApp]
  dsimp only
  rw [jsSpaceLpFact]
  rw [show expectChar '(' ('(' :: (args ++ [')', ';'])) = some (args ++ [')', ';'])
    from by simp [expectChar]]
  dsimp only
  rw [h]
  exact rfl

theorem matchCallBadArgs {w t : List Char} (h : argsLoop w = '(' :: t) :
    matchCall (tok ++ '(' :: w) = none := by
  rw [matchCall, dropTokApp]
  dsimp only
  rw [jsSpaceLpFact]
  rw [show expectChar '(' ('(' :: w) = some w from by simp [expectChar]]
  dsimp only
  rw [h]
  exact rfl

theorem scanCallsAll {c : Char} {cs : List Char} (h : matchCall (c :: cs) = some []) :
    scanCalls (c :: cs) = [] := by
  rw [scanCallsCons, h]
  exact scanCallsNil

theorem hasTokConsFalse {p c cs} (h : hasTok p (c :: cs) = false) :
    startsWithL p (c :: cs) = false ∧ hasTok p cs = false := by
  rw [hasTok] at h
  exact ⟨by cases hsw : startsWithL p (c :: cs) <;> simp [hsw] at h ⊢,
         by cases ht : hasTok p cs <;> simp [ht] at h ⊢⟩

theorem matchCallNoTok {s : List Char} (h : startsWithL tok s = false) :
    matchCall s = none := by
  rw [matchCall, dropTok, h]
  simp

theorem scanCallsNoTok : ∀ s : List Char, hasTok tok s = false → scanCalls s = s := by
  intro s
  induction s with
  | nil => intro _; rfl
  | cons c cs ih =>
    intro h
    have h2 := hasTokConsFalse h
    rw [scanCallsCons, matchCallNoTok h2.1]
    rw [ih h2.2]

theorem scanCallsHeadNone {c : Char} {cs : List Char} (h1 : matchCall (c :: cs) = none)
    (h2 : hasTok tok cs = false) : scanCalls (c :: cs) = c :: cs := by
  rw [scanCallsCons, h1]
  rw [scanCallsNoTok cs h2]

theorem twSubset {p : Char → Bool} : ∀ {l : List Char} {c : Char},
    c ∈ l.takeWhile p → c ∈ l := by
  intro l
  induction l with
  | nil => intro c h; simp [List.takeWhile] at h
  | cons d ds ih =>
    intro c h
    rw [List.takeWhile_cons] at h
    split at h
    · rcases List.mem_cons.mp h with h | h
      · simp [h]
      · simp [ih h]
    · simp at h

theorem matchBNoNl {s : List Char} (h : s.contains '\n' = false) :
    matchB s = none := by
  have hm : '\n' ∉ List.takeWhile jsSpace s := by
    intro hmem
    simp only [List.contains, List.elem_eq_mem, decide_eq_false_iff_not] at h
    exact h (twSubset hmem)
  simp [matchB, hm]

theorem noNlGoB : ∀ (s : List Char), s.contains '\n' = false → ∀ a, goB a s = s := by
  intro s
  induction s with
  | nil => intro _ a; rfl
  | cons c cs ih =>
    intro h a
    simp only [List.contains_cons, Bool.or_eq_false_iff] at h
    cases a with
    | true =>
      rw [goBTrue, matchBNoNl (show (c :: cs).contains '\n' = false from by
        rw [List.contains_cons, h.1, h.2]; rfl)]
      rw [ih h.2 (isLineTerm c)]
    | false =>
      rw [goBFalse, ih h.2 (isLineTerm c)]

theorem noNlGoC : ∀ (s : List Char), s.contains '\n' = false → goC s = s := by
  intro s
  induction s with
  | nil => intro _; rfl
  | cons c cs ih =>
    intro h
    simp only [List.contains_cons, Bool.or_eq_false_iff] at h
    have hc : (c == '\n') = false := by
      simp
      intro he; subst he; simp at h
    rw [goCCons, List.takeWhile_cons, hc]
    simp only [Bool.false_eq_true, if_false, List.takeWhile_nil, List.length_nil]
    rw [if_neg (by omega)]
    rw [ih h.2]

/-! ## Claims -/
/-! ### C10 — the unused-rule remover only deletes whole lines -/
theorem cssLoopSublist (js : List String) (readF : String → Option (List Char))
    (lines : List (List Char)) : ∀ st : CssSt,
    (cssLoop js readF lines st).1.Sublist lines := by
  induction lines with
  | nil =>
    intro st
    simp [cssLoop]
  | cons line rest ih =>
    intro st
    rw [cssLoop]
    by_cases h1 : st.inRule = false
    · rw [if_pos h1]
      cases hsel : lineSelectorClass line with
      | none =>
        dsimp only
        by_cases h6 : (line.contains '{' && !(line.contains '}')) = true
        · rw [if_pos h6]
          exact (ih _).cons₂ _
        · rw [if_neg h6]
          exact (ih _).cons₂ _
      | some cls =>
        dsimp only
        by_cases h2 : (isClassUsedGo cls js st.cache readF).1 = false
        · rw [if_pos h2]
          by_cases h3 : (line.contains '{' && line.contains '}') = true
          · rw [if_pos h3]
            exact (ih _).cons _
          · rw [if_neg h3]
            by_cases h4 : line.contains '{' = true
            · rw [if_pos h4]
              exact (ih _).cons _
            · rw [if_neg h4]
              exact (ih _).cons _
        · rw [if_neg h2]
          by_cases h5 : (line.contains '{' && !(line.contains '}')) = true
          · rw [if_pos h5]
            exact (ih _).cons₂ _
          · rw [if_neg h5]
            exact (ih _).cons₂ _
    · rw [if_neg h1]
      dsimp only
      by_cases h7 : st.skip = true
      · rw [if_pos h7]
        by_cases h8 : st.brace + (line.count '{' : Int) - (line.count '}' : Int) ≤ 0
        · rw [if_pos h8]
          exact (ih _).cons _
        · rw [if_neg h8]
          exact (ih _).cons _
      · rw [if_neg h7]
        by_cases h8 : st.brace + (line.count '{' : Int) - (line.count '}' : Int) ≤ 0
        · rw [if_pos h8]
          exact (ih _).cons₂ _
        · rw [if_neg h8]
          exact (ih _).cons₂ _

theorem containsFalseCount {l : List Char} {a : Char} (h : l.contains a = false) :
    l.count a = 0 := by
  induction l with
  | nil => rfl
  | cons c cs ih =>
    simp only [List.contains_cons, Bool.or_eq_false_iff] at h
    rw [List.count_cons]
    have h1 : ¬(c = a) := by
      intro he
      subst he
      simp at h
    rw [ih h.2]
    simp
    intro he
    exact absurd he h1

/-- Inside a kept rule block with depth 1, brace-free body lines are
emitted and the closing `}` line ends the block. -/
theorem cssLoopInRuleKeep (js : List String) (rf : String → Option (List Char)) :
    ∀ (body : List (List Char)) (st : CssSt), st.inRule = true → st.skip = false →
    st.brace = 1 →
    (∀ l ∈ body, l.contains '{' = false ∧ l.contains '}' = false) →
    cssLoop js rf (body ++ [str "\x7d"]) st =
      (body ++ [str "\x7d"], ⟨false, 0, false, st.cache⟩) := by
  intro body
  induction body with
  | nil =>
    intro st h1 h2 h3 _
    simp only [List.nil_append]
    rw [cssLoop]
    rw [if_neg (by rw [h1]; simp)]
    dsimp only
    have hc1 : ((str "\x7d").count '{' : Int) = 0 := by decide
    have hc2 : ((str "\x7d").count '}' : Int) = 1 := by decide
    rw [hc1, hc2, h3]
    norm_num
    rw [h2]
    simp [cssLoop]
  | cons l body ih =>
    intro st h1 h2 h3 hb
    have hc1 : (l.count '{' : Int) = 0 := by
      rw [containsFalseCount (hb l (by simp)).1]; simp
    have hc2 : (l.count '}' : Int) = 0 := by
      rw [containsFalseCount (hb l (by simp)).2]; simp
    simp only [List.cons_append]
    rw [cssLoop]
    rw [if_neg (by rw [h1]; simp)]
    dsimp only
    rw [hc1, hc2, h3, h2]
    norm_num
    have hi := ih ⟨st.inRule, 1, false, st.cache⟩ h1 rfl rfl
      (fun x hx => hb x (by simp [hx]))
    simp [hi]

/-- Inside a suppressed rule block with depth 1, brace-free body lines and
the closing `}` line are all dropped. -/
theorem cssLoopInRuleSkip (js : List String) (rf : String → Option (List Char)) :
    ∀ (body : List (List Char)) (st : CssSt), st.inRule = true → st.skip = true →
    st.brace = 1 →
    (∀ l ∈ body, l.contains '{' = false ∧ l.contains '}' = false) →
    cssLoop js rf (body ++ [str "\x7d"]) st =
      ([], ⟨false, 0, false, st.cache⟩) := by
  intro body
  induction body with
  | nil =>
    intro st h1 h2 h3 _
    simp only [List.nil_append]
    rw [cssLoop]
    rw [if_neg (by rw [h1]; simp)]
    dsimp only
    have hc1 : ((str "\x7d").count '{' : Int) = 0 := by decide
    have hc2 : ((str "\x7d").count '}' : Int) = 1 := by decide
    rw [hc1, hc2, h3]
    norm_num
    rw [h2]
    simp [cssLoop]
  | cons l body ih =>
    intro st h1 h2 h3 hb
    have hc1 : (l.count '{' : Int) = 0 := by
      rw [containsFalseCount (hb l (by simp)).1]; simp
    have hc2 : (l.count '}' : Int) = 0 := by
      rw [containsFalseCount (hb l (by simp)).2]; simp
    simp only [List.cons_append]
    rw [cssLoop]
    rw [if_neg (by rw [h1]; simp)]
    dsimp only
    rw [hc1, hc2, h3, h2]
    norm_num
    have hi := ih ⟨st.inRule, 1, true, st.cache⟩ h1 rfl rfl
      (fun x hx => hb x (by simp [hx]))
    simp [hi]

/-! ### C1 — compound selectors and the unused-rule remover -/
/-- C1 counterexample: the compound-selector rule `.a.b { … }` has its
class tokens unused (there are no source files at all), and the remover
deletes the whole rule instead of preserving it — the selector pattern
does match the compound form, keying on its first class token. -/
theorem c1_counterexample :
    removeUnusedCssClasses (str ".a.b \x7b\n  color: red;\n\x7d") []
      (fun _ => none) = [] ∧
    str ".a.b \x7b\n  color: red;\n\x7d" ≠ [] ∧
    lineSelectorClass (str ".a.b \x7b") = some (str "a") := by
  refine ⟨by decide, by decide, by decide⟩

/-- C1 amended: the remover evaluates a compound-selector rule by the
first class token of the selector line.  If that token's usage verdict is
true the rule's lines are kept verbatim; if it is false the whole
multi-line block is removed — compound selectors are not exempt from
removal. -/
theorem c1_amended (selLine cls : List Char) (body : List (List Char))
    (js1 js2 : List String) (rf1 rf2 : String → Option (List Char))
    (hsel : lineSelectorClass selLine = some cls)
    (hO : selLine.contains '{' = true) (hC : selLine.contains '}' = false)
    (hNl : selLine.contains '\n' = false)
    (hbody : ∀ l ∈ body, l.contains '{' = false ∧ l.contains '}' = false ∧
      l.contains '\n' = false)
    (hused : (isClassUsedGo cls js1 [] rf1).1 = true)
    (hunused : (isClassUsedGo cls js2 [] rf2).1 = false) :
    removeUnusedCssClasses (joinNl (selLine :: body ++ [str "\x7d"])) js1 rf1 =
      joinNl (selLine :: body ++ [str "\x7d"]) ∧
    removeUnusedCssClasses (joinNl (selLine :: body ++ [str "\x7d"])) js2 rf2 = [] := by
  have hsplit : splitNl (joinNl (selLine :: body ++ [str "\x7d"])) =
      selLine :: body ++ [str "\x7d"] := by
    apply splitNlJoinNl _ (by simp)
    intro l hl
    rcases List.mem_cons.mp hl with h | h
    · exact h ▸ hNl
    · rcases List.mem_append.mp h with h | h
      · exact (hbody l h).2.2
      · simp at h
        subst h
        decide
  constructor
  · rw [removeUnusedCssClasses, hsplit]
    simp only [List.cons_append, cssLoop]
    rw [if_pos (show cssInit.inRule = false from rfl)]
    rw [hsel]
    dsimp only
    rw [if_neg (by simp [cssInit, hused])]
    rw [if_pos (by rw [hO, hC]; rfl)]
    have hk := cssLoopInRuleKeep js1 rf1 body
      ⟨true, 1, false, (isClassUsedGo cls js1 cssInit.cache rf1).2⟩ rfl rfl rfl
      (fun l hl => ⟨(hbody l hl).1, (hbody l hl).2.1⟩)
    simp only [List.append_eq]
    simp only [hk]
  · rw [removeUnusedCssClasses, hsplit]
    simp only [List.cons_append, cssLoop]
    rw [if_pos (show cssInit.inRule = false from rfl)]
    rw [hsel]
    dsimp only
    rw [if_pos (by simp [cssInit, hunused])]
    rw [if_neg (by rw [hC]; simp)]
    rw [if_pos hO]
    have hk := cssLoopInRuleSkip js2 rf2 body
      ⟨true, 1, true, (isClassUsedGo cls js2 cssInit.cache rf2).2⟩ rfl rfl rfl
      (fun l hl => ⟨(hbody l hl).1, (hbody l hl).2.1⟩)
    simp only [List.append_eq]
    simp only [hk]
    simp [joinNl]

/-- C1 amended, witness: with one source file whose text is `'a'` the first
token of `.a.b` is used and the rule is kept; with no source files it is
unused and the rule is removed. -/
theorem c1_amended_witness :
    removeUnusedCssClasses (str ".a.b \x7b\n  color: red;\n\x7d") ["f.js"]
      (fun _ => some (str "'a'")) = str ".a.b \x7b\n  color: red;\n\x7d" ∧
    removeUnusedCssClasses (str ".a.b \x7b\n  color: red;\n\x7d") []
      (fun _ => none) = [] := by
  have h := c1_amended (str ".a.b \x7b") (str "a") [str "  color: red;"]
    ["f.js"] [] (fun _ => some (str "'a'")) (fun _ => none)
    (by decide) (by decide) (by decide) (by decide)
    (by intro l hl; simp at hl; subst hl; refine ⟨by decide, by decide, by decide⟩)
    (by decide)
    (by decide)
  have hj : joinNl ((str ".a.b \x7b") :: [str "  color: red;"] ++ [str "\x7d"]) =
      str ".a.b \x7b\n  color: red;\n\x7d" := by decide
  rw [hj] at h
  exact h

/-- C10: every line the unused-rule remover emits is an input line kept
verbatim, in order: the emitted line sequence is a subsequence of the
input's lines, and the function's output is exactly the join of that
subsequence — the pass can only delete whole lines. -/
theorem c10_remover_deletes_whole_lines (css : List Char) (js : List String)
    (readF : String → Option (List Char)) :
    (cssLoop js readF (splitNl css) cssInit).1.Sublist (splitNl css) ∧
    removeUnusedCssClasses css js readF =
      joinNl (cssLoop js readF (splitNl css) cssInit).1 := by
  exact ⟨cssLoopSublist js readF (splitNl css) cssInit, rfl⟩

theorem matchCallOfShape {A : List Char} (h : argsLoop A = [')', ';']) :
    matchCall (tok ++ '(' :: A) = some [] := by
  rw [matchCall, dropTokApp]
  dsimp only
  rw [jsSpaceLpFact]
  rw [show expectChar '(' ('(' :: A) = some A from by simp [expectChar]]
  dsimp only
  rw [h]
  exact rfl

theorem stripOfScanNil {s : List Char} (h : scanCalls s = []) :
    removeConsoleLogs s = [] := by
  rw [removeConsoleLogs, h]
  rfl

/-- C4: the debug-call stripper removes a complete `console.log(...);` call whose
arguments nest parentheses up to two levels deep (levels 0, 1 and 2, trailing
semicolon included, each leaving the empty string here), but a call whose
arguments open a third nested level of parentheses is not matched and the text
is returned unchanged. -/
theorem c4_nesting_depth_bound (u v x y : List Char)
    (hu : u.all notParen = true) (hv : v.all notParen = true)
    (hx : x.all notParen = true)
    (hnotok : hasTok tok (str "onsole.log" ++
      '(' :: (u ++ '(' :: (v ++ '(' :: (x ++ '(' :: (y ++ [')', ')', ')', ')', ';']))))) = false)
    (hnl : (tok ++
      '(' :: (u ++ '(' :: (v ++ '(' :: (x ++ '(' :: (y ++ [')', ')', ')', ')', ';']))))).contains '\n' = false) :
    removeConsoleLogs (tok ++ '(' :: (u ++ [')', ';'])) = [] ∧
    removeConsoleLogs (tok ++ '(' :: (u ++ '(' :: (v ++ [')', ')', ';']))) = [] ∧
    removeConsoleLogs (tok ++ '(' :: (u ++ '(' :: (v ++ '(' :: (x ++ [')', ')', ')', ';'])))) = [] ∧
    removeConsoleLogs (tok ++ '(' :: (u ++ '(' :: (v ++ '(' :: (x ++ '(' :: (y ++ [')', ')', ')', ')', ';']))))) =
      tok ++ '(' :: (u ++ '(' :: (v ++ '(' :: (x ++ '(' :: (y ++ [')', ')', ')', ')', ';'])))) := by
  refine ⟨?_, ?_, ?_, ?_⟩
  · have hA : argsLoop (u ++ [')', ';']) = [')', ';'] := argsLoopRun hu [';']
    have hm : matchCall (tok ++ '(' :: (u ++ [')', ';'])) = some [] := matchCallOfShape hA
    have e : tok ++ '(' :: (u ++ [')', ';']) =
        'c' :: (str "onsole.log" ++ '(' :: (u ++ [')', ';'])) := rfl
    rw [e] at hm
    have hs := scanCallsAll hm
    rw [← e] at hs
    exact stripOfScanNil hs
  · have hg : group1 ('(' :: (v ++ [')', ')', ';'])) = some [')', ';'] :=
      group1Of (inner1LoopRun hv [')', ';'])
    have hA : argsLoop (u ++ '(' :: (v ++ [')', ')', ';'])) = [')', ';'] := by
      rw [argsLoopGrp hu _ _ hg]
      exact argsLoopStop [';']
    have hm : matchCall (tok ++ '(' :: (u ++ '(' :: (v ++ [')', ')', ';']))) = some [] :=
      matchCallOfShape hA
    have e : tok ++ '(' :: (u ++ '(' :: (v ++ [')', ')', ';'])) =
        'c' :: (str "onsole.log" ++ '(' :: (u ++ '(' :: (v ++ [')', ')', ';']))) := rfl
    rw [e] at hm
    have hs := scanCallsAll hm
    rw [← e] at hs
    exact stripOfScanNil hs
  · have hi2 : inner2 ('(' :: (x ++ [')', ')', ')', ';'])) = some [')', ')', ';'] :=
      inner2Grp hx [')', ')', ';']
    have hil : inner1Loop (v ++ '(' :: (x ++ [')', ')', ')', ';'])) =
        inner1Loop [')', ')', ';'] := inner1LoopGrp hv _ _ hi2
    have hg : group1 ('(' :: (v ++ '(' :: (x ++ [')', ')', ')', ';']))) = some [')', ';'] :=
      group1Of (by rw [hil]; exact inner1LoopStop [')', ';'])
    have hA : argsLoop (u ++ '(' :: (v ++ '(' :: (x ++ [')', ')', ')', ';']))) = [')', ';'] := by
      rw [argsLoopGrp hu _ _ hg]
      exact argsLoopStop [';']
    have hm : matchCall (tok ++ '(' :: (u ++ '(' :: (v ++ '(' :: (x ++ [')', ')', ')', ';'])))) = some [] :=
      matchCallOfShape hA
    have e : tok ++ '(' :: (u ++ '(' :: (v ++ '(' :: (x ++ [')', ')', ')', ';']))) =
        'c' :: (str "onsole.log" ++ '(' :: (u ++ '(' :: (v ++ '(' :: (x ++ [')', ')', ')', ';'])))) := rfl
    rw [e] at hm
    have hs := scanCallsAll hm
    rw [← e] at hs
    exact stripOfScanNil hs
  · have hi2 : inner2 ('(' :: (x ++ '(' :: (y ++ [')', ')', ')', ')', ';']))) = none :=
      inner2Bad hx _
    have hil : inner1Loop (v ++ '(' :: (x ++ '(' :: (y ++ [')', ')', ')', ')', ';']))) =
        '(' :: (x ++ '(' :: (y ++ [')', ')', ')', ')', ';'])) := inner1LoopBad hv _ hi2
    have hg : group1 ('(' :: (v ++ '(' :: (x ++ '(' :: (y ++ [')', ')', ')', ')', ';'])))) = none :=
      group1NoneOf hil
    have hA : argsLoop (u ++ '(' :: (v ++ '(' :: (x ++ '(' :: (y ++ [')', ')', ')', ')', ';'])))) =
        '(' :: (v ++ '(' :: (x ++ '(' :: (y ++ [')', ')', ')', ')', ';']))) :=
      argsLoopBad hu _ hg
    have hm : matchCall (tok ++ '(' :: (u ++ '(' :: (v ++ '(' :: (x ++ '(' :: (y ++ [')', ')', ')', ')', ';']))))) = none :=
      matchCallBadArgs hA
    have e : tok ++ '(' :: (u ++ '(' :: (v ++ '(' :: (x ++ '(' :: (y ++ [')', ')', ')', ')', ';'])))) =
        'c' :: (str "onsole.log" ++ '(' :: (u ++ '(' :: (v ++ '(' :: (x ++ '(' :: (y ++ [')', ')', ')', ')', ';']))))) := rfl
    rw [e] at hm
    have hs := scanCallsHeadNone hm hnotok
    rw [← e] at hs
    rw [removeConsoleLogs, hs, noNlGoB _ hnl true, noNlGoC _ hnl]

theorem c4_nesting_depth_bound_witness :
    removeConsoleLogs (tok ++ '(' :: (str "a, b" ++ [')', ';'])) = [] ∧
    removeConsoleLogs (tok ++ '(' :: (str "a, b" ++ '(' :: (str "1" ++ [')', ')', ';']))) = [] ∧
    removeConsoleLogs (tok ++ '(' :: (str "a, b" ++ '(' :: (str "1" ++ '(' :: (str "2" ++ [')', ')', ')', ';'])))) = [] ∧
    removeConsoleLogs (tok ++ '(' :: (str "a, b" ++ '(' :: (str "1" ++ '(' :: (str "2" ++ '(' :: (str "3" ++ [')', ')', ')', ')', ';']))))) =
      tok ++ '(' :: (str "a, b" ++ '(' :: (str "1" ++ '(' :: (str "2" ++ '(' :: (str "3" ++ [')', ')', ')', ')', ';'])))) :=
  c4_nesting_depth_bound (str "a, b") (str "1") (str "2") (str "3")
    (by decide) (by decide) (by decide) (by decide) (by decide)

theorem countTokZero : ∀ {s : List Char}, countTok s = 0 → hasTok tok s = false := by
  intro s
  induction s with
  | nil => intro _; rfl
  | cons c cs ih =>
    intro h
    rw [countTokCons] at h
    rw [hasTok]
    by_cases hs : startsWithL tok (c :: cs) = true
    · rw [hs] at h
      simp at h
    · have hs' : startsWithL tok (c :: cs) = false := by simpa using hs
      rw [hs'] at h
      simp only [Bool.false_eq_true, if_false] at h
      simp [hs', ih h]

theorem bSafeGoB : ∀ (s : List Char) (a : Bool), bSafe a s = true → goB a s = s := by
  intro s
  induction s with
  | nil => intro a _; exact goBNil a
  | cons c cs ih =>
    intro a h
    cases a with
    | false =>
      rw [goBFalse]
      rw [bSafe] at h
      simp only [if_neg (by simp : ¬ false = true), Bool.true_and] at h
      rw [ih _ h]
    | true =>
      rw [bSafe] at h
      simp only [if_true, Bool.and_eq_true, Bool.not_eq_true'] at h
      have hmB : matchB (c :: cs) = none := by
        have hm : '\n' ∉ List.takeWhile jsSpace (c :: cs) := by
          intro hmem
          have h1 := h.1
          simp only [List.contains, List.elem_eq_mem, decide_eq_false_iff_not] at h1
          exact h1 hmem
        simp [matchB, hm]
      rw [goBTrue, hmB]
      rw [ih _ h.2]

theorem twNl3 : ∀ {s : List Char}, 3 ≤ (s.takeWhile (fun d => d == '\n')).length →
    startsWithL (str "\n\n\n") s = true := by
  intro s hge
  match s with
  | [] => simp [List.takeWhile] at hge
  | [c] =>
    have := twLen (fun d => d == '\n') [c]
    simp at this
    omega
  | [c, c2] =>
    have := twLen (fun d => d == '\n') [c, c2]
    simp at this
    omega
  | c :: c2 :: c3 :: rest =>
    rw [List.takeWhile_cons] at hge
    by_cases h1 : (c == '\n') = true
    · rw [if_pos h1] at hge
      rw [List.takeWhile_cons] at hge
      by_cases h2 : (c2 == '\n') = true
      · rw [if_pos h2] at hge
        rw [List.takeWhile_cons] at hge
        by_cases h3 : (c3 == '\n') = true
        · have e1 : c = '\n' := by simpa using h1
          have e2 : c2 = '\n' := by simpa using h2
          have e3 : c3 = '\n' := by simpa using h3
          subst e1; subst e2; subst e3
          rfl
        · rw [if_neg h3] at hge
          simp at hge
      · rw [if_neg h2] at hge
        simp at hge
    · rw [if_neg h1] at hge
      simp at hge

theorem noTripleGoC : ∀ (s : List Char), hasTok (str "\n\n\n") s = false → goC s = s := by
  intro s
  induction s with
  | nil => intro _; rfl
  | cons c cs ih =>
    intro h
    have h2 := hasTokConsFalse h
    rw [goCCons]
    have hlt : ¬ 3 ≤ (((c :: cs)).takeWhile (fun d => d == '\n')).length := by
      intro hge
      rw [twNl3 hge] at h2
      exact absurd h2.1 (by simp)
    rw [if_neg hlt, ih h2.2]

/-- C2 counterexample: `"a\n \nb"` contains no `console.log`, yet the stripper
rewrites its whitespace-only middle line, so the text is not returned
unchanged. -/
theorem c2_counterexample :
    countTok (str "a\n \nb") = 0 ∧
    removeConsoleLogs (str "a\n \nb") ≠ str "a\n \nb" := by
  decide

/-- C2: for a text with zero occurrences of `console.log`, the call-removal
scan is the identity, and the whole stripper returns the text unchanged
provided additionally that no whitespace run starting at a line start (the
text's start or any position after a LineTerminator) contains a newline and
that the text has no run of three consecutive newlines (the two
whitespace-normalization replaces run unconditionally). -/
theorem c2_no_token_identity (s : List Char) (h0 : countTok s = 0)
    (hB : bSafe true s = true) (hC : hasTok (str "\n\n\n") s = false) :
    removeConsoleLogs s = s := by
  have h1 : scanCalls s = s := scanCallsNoTok s (countTokZero h0)
  rw [removeConsoleLogs, h1, bSafeGoB s true hB, noTripleGoC s hC]

theorem c2_no_token_identity_witness :
    countTok (str "a b;\nc() { d }") = 0 ∧
    removeConsoleLogs (str "a b;\nc() { d }") = str "a b;\nc() { d }" :=
  ⟨by decide, c2_no_token_identity _ (by decide) (by decide) (by decide)⟩

theorem isUsedCacheEq (cls : List Char) (readF : String → Option (List Char)) :
    ∀ (files : List String) (cache : Cache),
    (∀ p c, cacheGet cache p = some c → readF p = some c) →
    (isClassUsedGo cls files cache readF).1 = isClassUsedNoCache cls files readF ∧
    ∀ p c, cacheGet (isClassUsedGo cls files cache readF).2 p = some c →
      readF p = some c := by
  intro files
  induction files with
  | nil => intro cache hok; exact ⟨rfl, hok⟩
  | cons f fs ih =>
    intro cache hok
    cases hc : cacheGet cache f with
    | some content =>
      have hrf : readF f = some content := hok f content hc
      simp only [isClassUsedGo, isClassUsedNoCache, hc, hrf]
      by_cases hm : patternsMatch cls content = true
      · refine ⟨by simp [hm], ?_⟩
        simpa [hm] using hok
      · have hm' : patternsMatch cls content = false := by simpa using hm
        simp only [hm', Bool.false_eq_true, if_false, Bool.false_or]
        exact ih cache hok
    | none =>
      cases hrf : readF f with
      | some content =>
        have hok2 : ∀ p c, cacheGet ((f, content) :: cache) p = some c →
            readF p = some c := by
          intro p c hpc
          rw [cacheGet] at hpc
          by_cases hfp : f = p
          · rw [if_pos hfp] at hpc
            simp only [Option.some.injEq] at hpc
            subst hpc
            rw [← hfp]
            exact hrf
          · rw [if_neg hfp] at hpc
            exact hok p c hpc
        simp only [isClassUsedGo, isClassUsedNoCache, hc, hrf]
        by_cases hm : patternsMatch cls content = true
        · refine ⟨by simp [hm], ?_⟩
          simpa [hm] using hok2
        · have hm' : patternsMatch cls content = false := by simpa using hm
          simp only [hm', Bool.false_eq_true, if_false, Bool.false_or]
          exact ih ((f, content) :: cache) hok2
      | none =>
        simp only [isClassUsedGo, isClassUsedNoCache, hc, hrf]
        exact ih cache hok

theorem noCacheSkip (cls : List Char) (readF : String → Option (List Char))
    (bad : String) (hbad : readF bad = none) :
    ∀ pre post, isClassUsedNoCache cls (pre ++ bad :: post) readF =
      isClassUsedNoCache cls (pre ++ post) readF := by
  intro pre
  induction pre with
  | nil =>
    intro post
    simp only [List.nil_append, isClassUsedNoCache, hbad]
  | cons f fs ih =>
    intro post
    simp only [List.cons_append, isClassUsedNoCache]
    cases hf : readF f <;> simp [hf, ih post]

theorem cssLoopCacheEq (js : List String) (readF : String → Option (List Char)) :
    ∀ (lines : List (List Char)) (st : CssSt),
    (∀ p c, cacheGet st.cache p = some c → readF p = some c) →
    (cssLoop js readF lines st).1 =
      cssLoopNoCache js readF lines st.inRule st.brace st.skip ∧
    ∀ p c, cacheGet (cssLoop js readF lines st).2.cache p = some c →
      readF p = some c := by
  intro lines
  induction lines with
  | nil => intro st hok; exact ⟨rfl, hok⟩
  | cons line rest ih =>
    intro st hok
    by_cases hir : st.inRule = false
    · simp only [cssLoop, cssLoopNoCache, hir, if_pos]
      cases hsel : lineSelectorClass line with
      | some cls =>
        simp only []
        have hu := isUsedCacheEq cls readF js st.cache hok
        by_cases hud : (isClassUsedGo cls js st.cache readF).1 = false
        · rw [hud] at hu
          simp only [hud, ← hu.1]
          by_cases hO : line.contains '{' = true
          · by_cases hC : line.contains '}' = true
            · simp only [hO, hC, Bool.and_self, if_pos]
              have := ih { st with skip := false, cache := (isClassUsedGo cls js st.cache readF).2 } hu.2
              simp only [hir] at this
              exact this
            · have hC' : line.contains '}' = false := by simpa using hC
              simp only [hO, hC', Bool.and_false, Bool.false_eq_true, if_false, if_pos]
              have := ih ⟨true, 1, true, (isClassUsedGo cls js st.cache readF).2⟩ hu.2
              exact this
          · have hO' : line.contains '{' = false := by simpa using hO
            simp only [hO', Bool.false_and, Bool.false_eq_true, if_false]
            have := ih { st with cache := (isClassUsedGo cls js st.cache readF).2 } hu.2
            simp only [hir] at this
            exact this
        · have hud' : (isClassUsedGo cls js st.cache readF).1 = true := by simpa using hud
          rw [hud'] at hu
          simp only [hud', ← hu.1, Bool.true_eq_false, if_false]
          by_cases hO : line.contains '{' = true
          · by_cases hC : line.contains '}' = true
            · simp only [hO, hC, Bool.not_true, Bool.and_false, Bool.false_eq_true, if_false]
              have := ih { st with cache := (isClassUsedGo cls js st.cache readF).2 } hu.2
              simp only [hir] at this
              exact ⟨by rw [this.1], this.2⟩
            · have hC' : line.contains '}' = false := by simpa using hC
              simp only [hO, hC', Bool.not_false, Bool.and_true, if_pos]
              have := ih ⟨true, 1, false, (isClassUsedGo cls js st.cache readF).2⟩ hu.2
              exact ⟨by rw [this.1], this.2⟩
          · have hO' : line.contains '{' = false := by simpa using hO
            simp only [hO', Bool.false_and, Bool.false_eq_true, if_false]
            have := ih { st with cache := (isClassUsedGo cls js st.cache readF).2 } hu.2
            simp only [hir] at this
            exact ⟨by rw [this.1], this.2⟩
      | none =>
        simp only []
        by_cases hOC : (line.contains '{' && !(line.contains '}')) = true
        · simp only [hOC, if_pos]
          have := ih { st with inRule := true, brace := 1, skip := false } hok
          exact ⟨by rw [this.1], this.2⟩
        · have hOC' : (line.contains '{' && !(line.contains '}')) = false := by
            simpa using hOC
          simp only [hOC', Bool.false_eq_true, if_false]
          have := ih st hok
          simp only [hir] at this
          exact ⟨by rw [this.1], this.2⟩
    · have hir' : st.inRule = true := by simpa using hir
      simp only [cssLoop, cssLoopNoCache, hir', Bool.true_eq_false, if_false]
      by_cases hb : st.brace + (line.count '{' : Int) - (line.count '}' : Int) ≤ 0
      · simp only [hb, if_pos]
        have := ih ⟨false, st.brace + (line.count '{' : Int) - (line.count '}' : Int), false, st.cache⟩ hok
        refine ⟨?_, this.2⟩
        rw [this.1]
        cases hs : st.skip <;> simp [hs]
      · rw [if_neg hb, if_neg hb]
        have := ih ⟨st.inRule, st.brace + (line.count '{' : Int) - (line.count '}' : Int), st.skip, st.cache⟩ hok
        simp only [hir'] at this
        refine ⟨?_, this.2⟩
        rw [this.1]
        cases hs : st.skip <;> simp [hs]

/-- C9: the shared file-content cache of the usage checker is a pure
read-through optimisation: starting from the fresh (empty) cache the verdict
equals the cache-free verdict of reading every file directly, the whole
unused-rule remover computes the same output as its cache-free counterpart,
and an unreadable source file is skipped: it contributes no match and does
not prevent matches in the remaining files. -/
theorem c9_cache_read_through (cls : List Char) (files pre post : List String)
    (css : List Char) (js : List String) (bad : String)
    (readF : String → Option (List Char)) (hbad : readF bad = none) :
    (isClassUsedGo cls files [] readF).1 = isClassUsedNoCache cls files readF ∧
    (isClassUsedGo cls (pre ++ bad :: post) [] readF).1 =
      isClassUsedNoCache cls (pre ++ post) readF ∧
    removeUnusedCssClasses css js readF = removeUnusedCssNoCache css js readF := by
  have hok : ∀ p c, cacheGet ([] : Cache) p = some c → readF p = some c := by
    intro p c h
    simp [cacheGet] at h
  refine ⟨(isUsedCacheEq cls readF files [] hok).1, ?_, ?_⟩
  · rw [(isUsedCacheEq cls readF (pre ++ bad :: post) [] hok).1]
    exact noCacheSkip cls readF bad hbad pre post
  · rw [removeUnusedCssClasses, removeUnusedCssNoCache,
      (cssLoopCacheEq js readF (splitNl css) cssInit hok).1]
    rfl

theorem c9_cache_read_through_witness :
    ((fun _ => none : String → Option (List Char)) "b" = none) ∧
    (isClassUsedGo (str "x") ["a"] [] (fun _ => none)).1 =
      isClassUsedNoCache (str "x") ["a"] (fun _ => none) ∧
    (isClassUsedGo (str "x") (["a"] ++ "b" :: ["c"]) [] (fun _ => none)).1 =
      isClassUsedNoCache (str "x") (["a"] ++ ["c"]) (fun _ => none) ∧
    removeUnusedCssClasses (str ".x \x7b\x7d") ["a"] (fun _ => none) =
      removeUnusedCssNoCache (str ".x \x7b\x7d") ["a"] (fun _ => none) :=
  ⟨rfl, c9_cache_read_through (str "x") ["a"] ["a"] ["c"] (str ".x \x7b\x7d") ["a"]
    "b" (fun _ => none) rfl⟩

theorem twStopApp {p : Char → Bool} {x : Char} (hx : p x = false)
    (u v : List Char) : (u ++ x :: v).takeWhile p = u.takeWhile p := by
  induction u with
  | nil => simp [List.takeWhile_cons, hx]
  | cons c u' ih =>
    rw [List.cons_append, List.takeWhile_cons, List.takeWhile_cons]
    by_cases hc : p c = true <;> simp [hc, ih]

theorem dwStopApp {p : Char → Bool} {x : Char} (hx : p x = false)
    (u v : List Char) : (u ++ x :: v).dropWhile p = u.dropWhile p ++ x :: v := by
  induction u with
  | nil => simp [List.dropWhile_cons, hx]
  | cons c u' ih =>
    rw [List.cons_append, List.dropWhile_cons, List.dropWhile_cons]
    by_cases hc : p c = true <;> simp [hc, ih]

theorem isWordHyphenNl : isWordHyphen '\n' = false := by decide

theorem extractCssApp : ∀ (n : Nat) (a b : List Char), a.length ≤ n →
    extractCss (a ++ '\n' :: b) = extractCss a ++ extractCss b := by
  intro n
  induction n with
  | zero =>
    intro a b ha
    match a with
    | [] =>
      rw [List.nil_append, extractCssCons, if_neg (by decide : ¬ ('\n' = '.')),
        extractCssNil, List.nil_append]
  | succ n ih =>
    intro a b ha
    match a with
    | [] =>
      rw [List.nil_append, extractCssCons, if_neg (by decide : ¬ ('\n' = '.')),
        extractCssNil, List.nil_append]
    | c :: a' =>
      simp only [List.length_cons] at ha
      rw [List.cons_append, extractCssCons, extractCssCons]
      by_cases hc : c = '.'
      · rw [if_pos hc, if_pos hc]
        cases a' with
        | nil =>
          simp only [List.nil_append]
          rw [if_neg (by decide : ¬ isAlphaUnd '\n' = true)]
          rw [extractCssCons, if_neg (by decide : ¬ ('\n' = '.'))]
        | cons d ds =>
          simp only [List.cons_append]
          by_cases hd : isAlphaUnd d = true
          · rw [if_pos hd, if_pos hd]
            rw [twStopApp isWordHyphenNl ds b, dwStopApp isWordHyphenNl ds b]
            have hlen : (ds.dropWhile isWordHyphen).length ≤ n := by
              have := dwLen isWordHyphen ds
              simp only [List.length_cons] at ha
              omega
            rw [ih (ds.dropWhile isWordHyphen) b hlen]
            rw [List.cons_append]
          · rw [if_neg hd, if_neg hd]
            have hlen : ((d :: ds : List Char)).length ≤ n := by
              simp only [List.length_cons] at ha ⊢
              omega
            have h2 := ih (d :: ds) b hlen
            rw [List.cons_append] at h2
            exact h2
      · rw [if_neg hc, if_neg hc]
        exact ih a' b (by omega)

theorem joinSplit : ∀ s : List Char, joinNl (splitNl s) = s := by
  intro s
  induction s with
  | nil => rfl
  | cons c cs ih =>
    rw [splitNl]
    by_cases hc : c = '\n'
    · rw [if_pos hc]
      subst hc
      cases hsp : splitNl cs with
      | nil => exact absurd hsp (splitNlNe cs)
      | cons l ls =>
        rw [hsp] at ih
        simp [joinNl, ih]
    · rw [if_neg hc]
      cases hsp : splitNl cs with
      | nil => exact absurd hsp (splitNlNe cs)
      | cons l ls =>
        rw [hsp] at ih
        cases ls with
        | nil =>
          rw [joinNl]
          rw [joinNl] at ih
          rw [ih]
        | cons l2 ls' =>
          rw [joinNl]
          rw [joinNl] at ih
          rw [List.cons_append, ih]

theorem extractJoin : ∀ ls : List (List Char),
    extractCss (joinNl ls) = (ls.map extractCss).join := by
  intro ls
  induction ls with
  | nil => rfl
  | cons l rest ih =>
    cases rest with
    | nil => simp [joinNl]
    | cons l2 ls' =>
      rw [joinNl, extractCssApp l.length l (joinNl (l2 :: ls')) (le_refl _), ih]
      simp

theorem extractSubset {ls ms : List (List Char)} (h : ls.Sublist ms) :
    ∀ cls, cls ∈ extractCss (joinNl ls) → cls ∈ extractCss (joinNl ms) := by
  intro cls hcls
  rw [extractJoin] at hcls ⊢
  rw [List.mem_join] at hcls ⊢
  obtain ⟨s, hs, hin⟩ := hcls
  exact ⟨s, (h.map extractCss).subset hs, hin⟩

theorem dedupLenLe {l m : List (List Char)} (h : ∀ x ∈ l, x ∈ m) :
    l.dedup.length ≤ m.dedup.length := by
  have h1 : l.toFinset ⊆ m.toFinset := by
    intro x hx
    rw [List.mem_toFinset] at hx ⊢
    exact h x hx
  have h2 := Finset.card_le_card h1
  rwa [List.card_toFinset, List.card_toFinset] at h2

/-- C5: every class token extracted from the unused-rule remover's output is
a token extracted from its input (so the set of distinct tokens can only
shrink), and for a stylesheet whose content changed and whose write
succeeds, the stylesheet pass adds exactly the difference of the two
distinct-token set sizes to `cssClassesRemoved`. -/
theorem c5_distinct_class_accounting (css : List Char) (js : List String)
    (readF : String → Option (List Char)) (w : World) (st : RunSt) (f : String)
    (content : List Char)
    (hread : safeReadFileE st.store f = .ok content)
    (hch : removeUnusedCssClasses content w.jsFiles (storeRead st.store) ≠ content)
    (hwr : safeWriteFileE w f = none) :
    (∀ cls, cls ∈ extractCss (removeUnusedCssClasses css js readF) →
      cls ∈ extractCss css) ∧
    cssClassCount (removeUnusedCssClasses css js readF) ≤ cssClassCount css ∧
    (cssStep w st f).stats.cssClassesRemoved = st.stats.cssClassesRemoved +
      ((cssClassCount content : Int) -
        (cssClassCount (removeUnusedCssClasses content w.jsFiles
          (storeRead st.store)) : Int)) := by
  have hsub : ∀ cls, cls ∈ extractCss (removeUnusedCssClasses css js readF) →
      cls ∈ extractCss css := by
    intro cls hcls
    rw [removeUnusedCssClasses] at hcls
    have h1 := extractSubset (cssLoopSublist js readF (splitNl css) cssInit) cls hcls
    rwa [joinSplit css] at h1
  refine ⟨hsub, ?_, ?_⟩
  · exact dedupLenLe (fun x hx => hsub x hx)
  · simp only [cssStep, hread]
    rw [if_neg hch, hwr]

theorem c5_distinct_class_accounting_witness :
    (∀ cls, cls ∈ extractCss (removeUnusedCssClasses
        (str ".u \x7b\ncolor: red;\n\x7d") [] (fun _ => none)) →
      cls ∈ extractCss (str ".u \x7b\ncolor: red;\n\x7d")) ∧
    cssClassCount (removeUnusedCssClasses
        (str ".u \x7b\ncolor: red;\n\x7d") [] (fun _ => none)) ≤
      cssClassCount (str ".u \x7b\ncolor: red;\n\x7d") ∧
    (cssStep
        ⟨.ok true, true, [], [], ["a.css"], [],
          fun _ => .ok (str ".u \x7b\ncolor: red;\n\x7d"), fun _ => none⟩
        ⟨stats0, fun _ => .ok (str ".u \x7b\ncolor: red;\n\x7d")⟩
        "a.css").stats.cssClassesRemoved =
      stats0.cssClassesRemoved +
      ((cssClassCount (str ".u \x7b\ncolor: red;\n\x7d") : Int) -
        (cssClassCount (removeUnusedCssClasses (str ".u \x7b\ncolor: red;\n\x7d")
          []
          (storeRead (fun _ => .ok (str ".u \x7b\ncolor: red;\n\x7d")))) : Int)) :=
  c5_distinct_class_accounting (str ".u \x7b\ncolor: red;\n\x7d") []
    (fun _ => none)
    ⟨.ok true, true, [], [], ["a.css"], [],
      fun _ => .ok (str ".u \x7b\ncolor: red;\n\x7d"), fun _ => none⟩
    ⟨stats0, fun _ => .ok (str ".u \x7b\ncolor: red;\n\x7d")⟩
    "a.css" (str ".u \x7b\ncolor: red;\n\x7d") rfl (by decide) rfl

theorem twMemProp {p : Char → Bool} : ∀ {l : List Char} {c : Char},
    c ∈ l.takeWhile p → p c = true := by
  intro l
  induction l with
  | nil => intro c h; simp [List.takeWhile] at h
  | cons d ds ih =>
    intro c h
    rw [List.takeWhile_cons] at h
    by_cases hd : p d = true
    · rw [if_pos hd] at h
      rcases List.mem_cons.mp h with h1 | h1
      · rwa [h1]
      · exact ih h1
    · rw [if_neg hd] at h
      simp at h

theorem matchBNoneOfRun {s : List Char} (hm : '\n' ∉ s.takeWhile jsSpace) :
    matchB s = none := by
  simp [matchB, hm]

theorem matchBNoneRun {s : List Char} (h : matchB s = none) :
    '\n' ∉ s.takeWhile jsSpace := by
  intro hmem
  have hc : (s.takeWhile jsSpace).contains '\n' = true := by
    simp [List.contains, List.elem_eq_mem]
    exact hmem
  simp [matchB, hc] at h
  exact h hmem

theorem dwHead (p : Char → Bool) (l : List Char) :
    l.dropWhile p = [] ∨ ∃ d ds, l.dropWhile p = d :: ds ∧ p d = false := by
  induction l with
  | nil => left; rfl
  | cons c cs ih =>
    rw [List.dropWhile_cons]
    by_cases hc : p c = true
    · rw [if_pos hc]; exact ih
    · rw [if_neg hc]
      right
      exact ⟨c, cs, rfl, by simpa using hc⟩

theorem matchBSomeRun {s r : List Char} (h : matchB s = some r) :
    '\n' ∉ r.takeWhile jsSpace := by
  have hr : r = ((s.takeWhile jsSpace).reverse.takeWhile
      (fun c => !(c == '\n'))).reverse ++ s.dropWhile jsSpace := by
    simp only [matchB] at h
    split at h
    · simp only [Option.some.injEq] at h
      exact h.symm
    · simp at h
  have hallsp : ∀ c ∈ ((s.takeWhile jsSpace).reverse.takeWhile
      (fun c => !(c == '\n'))).reverse, jsSpace c = true := by
    intro c hc
    rw [List.mem_reverse] at hc
    have h1 := twSubset hc
    rw [List.mem_reverse] at h1
    exact twMemProp h1
  have hnonl : '\n' ∉ ((s.takeWhile jsSpace).reverse.takeWhile
      (fun c => !(c == '\n'))).reverse := by
    intro hc
    rw [List.mem_reverse] at hc
    have := twMemProp hc
    simp at this
  have htw : r.takeWhile jsSpace = ((s.takeWhile jsSpace).reverse.takeWhile
      (fun c => !(c == '\n'))).reverse := by
    rw [hr]
    rcases dwHead jsSpace s with hd | ⟨d, ds, hd, hdp⟩
    · rw [hd, List.append_nil]
      exact takeWhileAll hallsp
    · rw [hd]
      exact (takeWhileMid hdp _ ds hallsp).1
  rw [htw]
  exact hnonl

theorem matchBNlCons (v : List Char) (hv : '\n' ∉ v.takeWhile jsSpace) :
    matchB ('\n' :: v) = some v := by
  have hrun : ('\n' :: v).takeWhile jsSpace = '\n' :: v.takeWhile jsSpace := by
    rw [List.takeWhile_cons, if_pos (by decide : jsSpace '\n' = true)]
  have hall : ∀ c ∈ (v.takeWhile jsSpace).reverse, (fun c => !(c == '\n')) c = true := by
    intro c hc
    rw [List.mem_reverse] at hc
    simp
    intro he
    exact hv (he ▸ hc)
  simp only [matchB]
  rw [hrun]
  rw [if_pos (show (('\n' :: v.takeWhile jsSpace).contains '\n') = true from by simp)]
  rw [List.reverse_cons,
    (takeWhileMid (by decide : (fun c => !(c == '\n')) '\n' = false)
      (v.takeWhile jsSpace).reverse [] hall).1,
    List.reverse_reverse, List.dropWhile_cons,
    if_pos (by decide : jsSpace '\n' = true),
    List.takeWhile_append_dropWhile]

theorem goBRunPreserved : ∀ (cs : List Char), '\n' ∉ cs.takeWhile jsSpace →
    ∀ a, (goB a cs).takeWhile jsSpace = cs.takeWhile jsSpace := by
  intro cs
  induction cs with
  | nil => intro _ a; cases a <;> rfl
  | cons c cs' ih =>
    intro h a
    by_cases hc : jsSpace c = true
    · have hrun : (c :: cs').takeWhile jsSpace = c :: cs'.takeWhile jsSpace := by
        rw [List.takeWhile_cons, if_pos hc]
      have h' : '\n' ∉ cs'.takeWhile jsSpace := by
        intro hx
        exact h (by rw [hrun]; exact List.mem_cons_of_mem _ hx)
      have hstep : goB a (c :: cs') = c :: goB (isLineTerm c) cs' := by
        cases a with
        | false => exact goBFalse c cs'
        | true => rw [goBTrue, matchBNoneOfRun h]
      rw [hstep, hrun, List.takeWhile_cons, if_pos hc, ih h' (isLineTerm c)]
    · have hrun0 : (c :: cs').takeWhile jsSpace = [] := by
        rw [List.takeWhile_cons, if_neg hc]
      have hstep : goB a (c :: cs') = c :: goB (isLineTerm c) cs' := by
        cases a with
        | false => exact goBFalse c cs'
        | true =>
          rw [goBTrue, matchBNoneOfRun (by rw [hrun0]; simp)]
      rw [hstep, hrun0, List.takeWhile_cons, if_neg hc]

theorem goBIdemF : ∀ (n : Nat) (s : List Char), s.length ≤ n → ∀ a,
    goB a (goB a s) = goB a s := by
  intro n
  induction n with
  | zero =>
    intro s hs a
    match s with
    | [] => rfl
  | succ n ih =>
    intro s hs a
    match s with
    | [] => rfl
    | c :: cs =>
      have hcs : cs.length ≤ n := by simp at hs; omega
      cases a with
      | false =>
        rw [goBFalse, goBFalse, ih cs hcs (isLineTerm c)]
      | true =>
        cases hm : matchB (c :: cs) with
        | none =>
          have hrun := matchBNoneRun hm
          rw [goBTrue, hm]
          have hm2 : matchB (c :: goB (isLineTerm c) cs) = none := by
            apply matchBNoneOfRun
            by_cases hc : jsSpace c = true
            · rw [List.takeWhile_cons, if_pos hc] at hrun ⊢
              have h' : '\n' ∉ cs.takeWhile jsSpace := by
                intro hx
                exact hrun (List.mem_cons_of_mem _ hx)
              rw [goBRunPreserved cs h' (isLineTerm c)]
              exact hrun
            · rw [List.takeWhile_cons, if_neg hc]
              simp
          rw [goBTrue, hm2, ih cs hcs (isLineTerm c)]
        | some r =>
          have hlen := matchBLen hm
          have hnr := matchBSomeRun hm
          have hr : r.length ≤ n := by
            simp only [List.length_cons] at hs hlen
            omega
          rw [goBTrue, hm]
          have hvr : '\n' ∉ (goB true r).takeWhile jsSpace := by
            rw [goBRunPreserved r hnr true]
            exact hnr
          rw [goBTrue, matchBNlCons _ hvr]
          show '\n' :: goB true (goB true r) = '\n' :: goB true r
          rw [ih r hr true]

theorem goBNoTripleF : ∀ (n : Nat) (s : List Char), s.length ≤ n →
    (hasTok (str "\n\n\n") (goB true s) = false ∧
     startsWithL (str "\n\n") (goB true s) = false) ∧
    (hasTok (str "\n\n\n") (goB false s) = false ∧
     startsWithL (str "\n\n\n") (goB false s) = false) := by
  intro n
  induction n with
  | zero =>
    intro s hs
    match s with
    | [] => exact ⟨⟨rfl, rfl⟩, ⟨rfl, rfl⟩⟩
  | succ n ih =>
    intro s hs
    match s with
    | [] => exact ⟨⟨rfl, rfl⟩, ⟨rfl, rfl⟩⟩
    | c :: cs =>
      have hcs : cs.length ≤ n := by simp at hs; omega
      have IH := ih cs hcs
      constructor
      · cases hm : matchB (c :: cs) with
        | none =>
          have hrun := matchBNoneRun hm
          have hcn : ¬ c = '\n' := by
            intro he
            subst he
            exact hrun (by
              rw [List.takeWhile_cons, if_pos (by decide : jsSpace '\n' = true)]
              exact List.mem_cons_self _ _)
          have hstep : goB true (c :: cs) = c :: goB (isLineTerm c) cs := by
            rw [goBTrue, hm]
          rw [hstep]
          have htok : hasTok (str "\n\n\n") (goB (isLineTerm c) cs) = false := by
            cases hlt : isLineTerm c
            · exact IH.2.1
            · exact IH.1.1
          constructor
          · rw [hasTok,
              show startsWithL (str "\n\n\n") (c :: goB (isLineTerm c) cs) =
                (('\n' == c) &&
                  startsWithL (str "\n\n") (goB (isLineTerm c) cs)) from rfl,
              show ('\n' == c) = false from
                beq_eq_false_iff_ne.mpr (fun he => hcn he.symm),
              htok]
            rfl
          · rw [show startsWithL (str "\n\n") (c :: goB (isLineTerm c) cs) =
                (('\n' == c) &&
                  startsWithL (str "\n") (goB (isLineTerm c) cs)) from rfl,
              show ('\n' == c) = false from
                beq_eq_false_iff_ne.mpr (fun he => hcn he.symm)]
            rfl
        | some r =>
          have hlen := matchBLen hm
          have hnr := matchBSomeRun hm
          have hr : r.length ≤ n := by
            simp only [List.length_cons] at hs hlen
            omega
          have IHr := ih r hr
          rw [goBTrue, hm]
          have hsw1 : startsWithL (str "\n") (goB true r) = false := by
            cases hv : goB true r with
            | nil => rfl
            | cons x xs =>
              have hxn : ¬ x = '\n' := by
                intro he
                have hmem : '\n' ∈ (goB true r).takeWhile jsSpace := by
                  rw [hv, he, List.takeWhile_cons,
                    if_pos (by decide : jsSpace '\n' = true)]
                  exact List.mem_cons_self _ _
                rw [goBRunPreserved r hnr true] at hmem
                exact hnr hmem
              rw [show startsWithL (str "\n") (x :: xs) =
                  (('\n' == x) && true) from rfl,
                show ('\n' == x) = false from
                  beq_eq_false_iff_ne.mpr (fun he => hxn he.symm)]
              rfl
          constructor
          · rw [hasTok,
              show startsWithL (str "\n\n\n") ('\n' :: goB true r) =
                (('\n' == '\n') && startsWithL (str "\n\n") (goB true r)) from rfl,
              IHr.1.2, IHr.1.1]
            rfl
          · rw [show startsWithL (str "\n\n") ('\n' :: goB true r) =
                (('\n' == '\n') && startsWithL (str "\n") (goB true r)) from rfl,
              hsw1]
            rfl
      · rw [goBFalse]
        by_cases hc : c = '\n'
        · subst hc
          rw [show isLineTerm '\n' = true from rfl]
          constructor
          · rw [hasTok,
              show startsWithL (str "\n\n\n") ('\n' :: goB true cs) =
                (('\n' == '\n') && startsWithL (str "\n\n") (goB true cs)) from rfl,
              IH.1.2, IH.1.1]
            rfl
          · rw [show startsWithL (str "\n\n\n") ('\n' :: goB true cs) =
                (('\n' == '\n') && startsWithL (str "\n\n") (goB true cs)) from rfl,
              IH.1.2]
            rfl
        · have hne : ('\n' == c) = false :=
            beq_eq_false_iff_ne.mpr (fun he => hc he.symm)
          have htok : hasTok (str "\n\n\n") (goB (isLineTerm c) cs) = false := by
            cases hlt : isLineTerm c
            · exact IH.2.1
            · exact IH.1.1
          constructor
          · rw [hasTok,
              show startsWithL (str "\n\n\n") (c :: goB (isLineTerm c) cs) =
                (('\n' == c) &&
                  startsWithL (str "\n\n") (goB (isLineTerm c) cs)) from rfl,
              hne, htok]
            rfl
          · rw [show startsWithL (str "\n\n\n") (c :: goB (isLineTerm c) cs) =
                (('\n' == c) &&
                  startsWithL (str "\n\n") (goB (isLineTerm c) cs)) from rfl,
              hne]
            rfl

theorem goBNoTriple (s : List Char) :
    hasTok (str "\n\n\n") (goB true s) = false :=
  (goBNoTripleF s.length s (le_refl _)).1.1

theorem goBIdem (s : List Char) : goB true (goB true s) = goB true s :=
  goBIdemF s.length s (le_refl _) true

/-- C3 counterexample: removing a complete call can splice the surrounding
text into a new `console.log(...)` call, so a second pass removes more. -/
theorem c3_counterexample :
    removeConsoleLogs (removeConsoleLogs (str "console.console.log(x);log(y)")) ≠
      removeConsoleLogs (str "console.console.log(x);log(y)") := by
  decide

/-- C3: the stripper is idempotent whenever re-scanning its output finds no
further complete call (the blank-line and newline-collapse passes are always
idempotent on stripper output; only call-removal splicing can break
idempotence). -/
theorem c3_idempotent_unless_splice (s : List Char)
    (h : scanCalls (removeConsoleLogs s) = removeConsoleLogs s) :
    removeConsoleLogs (removeConsoleLogs s) = removeConsoleLogs s := by
  have hg : removeConsoleLogs s = goB true (scanCalls s) := by
    rw [removeConsoleLogs, noTripleGoC _ (goBNoTriple (scanCalls s))]
  conv_lhs => rw [removeConsoleLogs, h, hg]
  rw [goBIdem (scanCalls s), noTripleGoC _ (goBNoTriple (scanCalls s))]
  exact hg.symm

theorem c3_idempotent_unless_splice_witness :
    scanCalls (removeConsoleLogs (str "console.log(1);\nkeep()")) =
      removeConsoleLogs (str "console.log(1);\nkeep()") ∧
    removeConsoleLogs (removeConsoleLogs (str "console.log(1);\nkeep()")) =
      removeConsoleLogs (str "console.log(1);\nkeep()") :=
  ⟨by decide, c3_idempotent_unless_splice _ (by decide)⟩

/-- C7: a failing root validation returns exactly one fatal
`INVALID_PROJECT_ROOT` error with zero counters and no warnings, and a
valid root without a `src` subdirectory returns exactly one
`SRC_DIR_NOT_FOUND` warning with zero counters and no errors; in both
cases the file store is returned untouched. -/
theorem c7_validation_early_returns (root : String) (w w2 : World)
    (hroot : root ≠ "") (hstat : w.rootStat = .error .enoent)
    (hok : w2.rootStat = .ok true) (hsrc : w2.srcExists = false) :
    run root w = ⟨{ stats0 with errors := [⟨"INVALID_PROJECT_ROOT",
        "Project root directory does not exist", root⟩] }, w.store⟩ ∧
    run root w2 = ⟨{ stats0 with warnings := [⟨"SRC_DIR_NOT_FOUND",
        "Source directory not found: " ++ root ++ "/src", root ++ "/src"⟩] },
      w2.store⟩ := by
  constructor
  · rw [run, validateProjectRoot, if_neg hroot, hstat]
  · rw [run, validateProjectRoot, if_neg hroot, hok, hsrc]
    rfl

theorem c7_validation_early_returns_witness :
    run "r" ⟨.error .enoent, false, [], [], [], [],
        fun _ => .error .enoent, fun _ => none⟩ =
      ⟨{ stats0 with errors := [⟨"INVALID_PROJECT_ROOT",
          "Project root directory does not exist", "r"⟩] },
        fun _ => .error .enoent⟩ ∧
    run "r" ⟨.ok true, false, [], [], [], [],
        fun _ => .error .enoent, fun _ => none⟩ =
      ⟨{ stats0 with warnings := [⟨"SRC_DIR_NOT_FOUND",
          "Source directory not found: " ++ "r" ++ "/src", "r" ++ "/src"⟩] },
        fun _ => .error .enoent⟩ :=
  c7_validation_early_returns "r"
    ⟨.error .enoent, false, [], [], [], [], fun _ => .error .enoent, fun _ => none⟩
    ⟨.ok true, false, [], [], [], [], fun _ => .error .enoent, fun _ => none⟩
    (by decide) rfl rfl rfl

/-- C8: when the write of a transformed file fails after a successful read,
the step leaves the whole state unchanged except for appending the mapped
error record (so the stored content and every counter stay as before), the
record's code is one of the two stable write-error codes, and the loop goes
on to fold the remaining files from that state; the stylesheet pass behaves
the same way. -/
theorem c8_write_failure_is_isolated (w : World) (st st2 : RunSt) (f f2 : String)
    (content content2 : List Char) (e e2 : ErrRec) (post : List String)
    (hread : safeReadFileE st.store f = .ok content)
    (hch : removeConsoleLogs content ≠ content)
    (hwe : safeWriteFileE w f = some e)
    (hread2 : safeReadFileE st2.store f2 = .ok content2)
    (hch2 : removeUnusedCssClasses content2 w.jsFiles (storeRead st2.store) ≠ content2)
    (hwe2 : safeWriteFileE w f2 = some e2) :
    jsStep w st f = { st with stats.errors := st.stats.errors ++ [e] } ∧
    List.foldl (jsStep w) st (f :: post) =
      List.foldl (jsStep w) { st with stats.errors := st.stats.errors ++ [e] } post ∧
    (e.code = "PERMISSION_DENIED" ∨ e.code = "FILE_WRITE_ERROR") ∧
    cssStep w st2 f2 = { st2 with stats.errors := st2.stats.errors ++ [e2] } := by
  have h1 : jsStep w st f = { st with stats.errors := st.stats.errors ++ [e] } := by
    simp only [jsStep, hread]
    rw [if_neg hch, hwe]
  refine ⟨h1, ?_, ?_, ?_⟩
  · rw [List.foldl_cons, h1]
  · rw [safeWriteFileE] at hwe
    cases hw : w.writeErr f with
    | none => rw [hw] at hwe; simp at hwe
    | some s0 =>
      rw [hw] at hwe
      cases s0 with
      | eacces =>
        left
        simp only [Option.some.injEq] at hwe
        rw [← hwe]
      | enoent =>
        right
        simp only [Option.some.injEq] at hwe
        rw [← hwe]
      | eisdir =>
        right
        simp only [Option.some.injEq] at hwe
        rw [← hwe]
      | enospc =>
        right
        simp only [Option.some.injEq] at hwe
        rw [← hwe]
      | erofs =>
        right
        simp only [Option.some.injEq] at hwe
        rw [← hwe]
      | eother =>
        right
        simp only [Option.some.injEq] at hwe
        rw [← hwe]
  · simp only [cssStep, hread2]
    rw [if_neg hch2, hwe2]

theorem c8_write_failure_is_isolated_witness :
    jsStep ⟨.ok true, true, [], [], [], [], fun _ => .ok [], fun _ => some .eacces⟩
        ⟨stats0, fun _ => .ok (str "console.log(1);")⟩ "a.js" =
      { (⟨stats0, fun _ => .ok (str "console.log(1);")⟩ : RunSt) with
        stats.errors := stats0.errors ++
          [⟨"PERMISSION_DENIED", "Permission denied writing to file: a.js", "a.js"⟩] } ∧
    List.foldl
      (jsStep ⟨.ok true, true, [], [], [], [], fun _ => .ok [], fun _ => some .eacces⟩)
      ⟨stats0, fun _ => .ok (str "console.log(1);")⟩ ("a.js" :: []) =
    List.foldl
      (jsStep ⟨.ok true, true, [], [], [], [], fun _ => .ok [], fun _ => some .eacces⟩)
      { (⟨stats0, fun _ => .ok (str "console.log(1);")⟩ : RunSt) with
        stats.errors := stats0.errors ++
          [⟨"PERMISSION_DENIED", "Permission denied writing to file: a.js", "a.js"⟩] } [] ∧
    ((⟨"PERMISSION_DENIED", "Permission denied writing to file: a.js",
        "a.js"⟩ : ErrRec).code = "PERMISSION_DENIED" ∨
     (⟨"PERMISSION_DENIED", "Permission denied writing to file: a.js",
        "a.js"⟩ : ErrRec).code = "FILE_WRITE_ERROR") ∧
    cssStep ⟨.ok true, true, [], [], [], [], fun _ => .ok [], fun _ => some .eacces⟩
        ⟨stats0, fun _ => .ok (str ".u \x7b\nc\n\x7d")⟩ "b.css" =
      { (⟨stats0, fun _ => .ok (str ".u \x7b\nc\n\x7d")⟩ : RunSt) with
        stats.errors := stats0.errors ++
          [⟨"PERMISSION_DENIED", "Permission denied writing to file: b.css", "b.css"⟩] } :=
  c8_write_failure_is_isolated
    ⟨.ok true, true, [], [], [], [], fun _ => .ok [], fun _ => some .eacces⟩
    ⟨stats0, fun _ => .ok (str "console.log(1);")⟩
    ⟨stats0, fun _ => .ok (str ".u \x7b\nc\n\x7d")⟩
    "a.js" "b.css" (str "console.log(1);") (str ".u \x7b\nc\n\x7d")
    ⟨"PERMISSION_DENIED", "Permission denied writing to file: a.js", "a.js"⟩
    ⟨"PERMISSION_DENIED", "Permission denied writing to file: b.css", "b.css"⟩
    [] rfl (by decide) rfl rfl (by decide) rfl

/-- C6 counterexample: a source file whose cleanup changed its content but
whose write fails does not increment `filesProcessed`, so the statistic does
not count every file whose post-transform content differs. -/
theorem c6_counterexample :
    removeConsoleLogs (str "console.log(1);\n") ≠ str "console.log(1);\n" ∧
    (run "r" ⟨.ok true, true, ["a.js"], [], [], [],
        fun _ => .ok (str "console.log(1);\n"),
        fun _ => some .eacces⟩).stats.filesProcessed = 0 := by
  decide

/-- C6: `filesProcessed` counts exactly the files that were read, whose
transform changed the content, and whose write succeeded: an unchanged file
leaves the step state completely untouched (no increment, no write), a
changed file with a successful write increments the counter by one and
stores the new content, and a changed file with a failing write increments
nothing and leaves the store unchanged; an unchanged stylesheet likewise
leaves the state untouched. -/
theorem c6_files_processed_accounting (w : World) (st : RunSt) (f : String)
    (content : List Char) (e : ErrRec)
    (hread : safeReadFileE st.store f = .ok content) :
    (removeConsoleLogs content = content → jsStep w st f = st) ∧
    (removeConsoleLogs content ≠ content → safeWriteFileE w f = none →
      (jsStep w st f).stats.filesProcessed = st.stats.filesProcessed + 1 ∧
      (jsStep w st f).store =
        fun p => if p = f then .ok (removeConsoleLogs content) else st.store p) ∧
    (removeConsoleLogs content ≠ content → safeWriteFileE w f = some e →
      (jsStep w st f).stats.filesProcessed = st.stats.filesProcessed ∧
      (jsStep w st f).store = st.store) ∧
    (∀ st2 f2 content2, safeReadFileE st2.store f2 = .ok content2 →
      removeUnusedCssClasses content2 w.jsFiles (storeRead st2.store) = content2 →
      cssStep w st2 f2 = st2) := by
  refine ⟨?_, ?_, ?_, ?_⟩
  · intro hunch
    simp only [jsStep, hread]
    rw [if_pos hunch]
  · intro hch hwr
    simp only [jsStep, hread]
    rw [if_neg hch, hwr]
    exact ⟨rfl, rfl⟩
  · intro hch hwr
    simp only [jsStep, hread]
    rw [if_neg hch, hwr]
    exact ⟨rfl, rfl⟩
  · intro st2 f2 content2 hr2 hunch2
    simp only [cssStep, hr2]
    rw [if_pos hunch2]

theorem c6_files_processed_accounting_witness :
    (removeConsoleLogs (str "keep") = str "keep" →
      jsStep ⟨.ok true, true, [], [], [], [], fun _ => .ok [], fun _ => none⟩
        ⟨stats0, fun _ => .ok (str "keep")⟩ "a.js" =
      ⟨stats0, fun _ => .ok (str "keep")⟩) ∧
    (removeConsoleLogs (str "keep") ≠ str "keep" →
      safeWriteFileE ⟨.ok true, true, [], [], [], [],
        fun _ => .ok [], fun _ => none⟩ "a.js" = none →
      (jsStep ⟨.ok true, true, [], [], [], [], fun _ => .ok [], fun _ => none⟩
        ⟨stats0, fun _ => .ok (str "keep")⟩ "a.js").stats.filesProcessed =
        (⟨stats0, fun _ => .ok (str "keep")⟩ : RunSt).stats.filesProcessed + 1 ∧
      (jsStep ⟨.ok true, true, [], [], [], [], fun _ => .ok [], fun _ => none⟩
        ⟨stats0, fun _ => .ok (str "keep")⟩ "a.js").store =
        fun p => if p = "a.js" then .ok (removeConsoleLogs (str "keep"))
          else (⟨stats0, fun _ => .ok (str "keep")⟩ : RunSt).store p) ∧
    (removeConsoleLogs (str "keep") ≠ str "keep" →
      safeWriteFileE ⟨.ok true, true, [], [], [], [],
        fun _ => .ok [], fun _ => none⟩ "a.js" =
        some ⟨"FILE_WRITE_ERROR", "Failed to write file: a.js", "a.js"⟩ →
      (jsStep ⟨.ok true, true, [], [], [], [], fun _ => .ok [], fun _ => none⟩
        ⟨stats0, fun _ => .ok (str "keep")⟩ "a.js").stats.filesProcessed =
        (⟨stats0, fun _ => .ok (str "keep")⟩ : RunSt).stats.filesProcessed ∧
      (jsStep ⟨.ok true, true, [], [], [], [], fun _ => .ok [], fun _ => none⟩
        ⟨stats0, fun _ => .ok (str "keep")⟩ "a.js").store =
        (⟨stats0, fun _ => .ok (str "keep")⟩ : RunSt).store) ∧
    (∀ st2 f2 content2, safeReadFileE st2.store f2 = .ok content2 →
      removeUnusedCssClasses content2
        (⟨.ok true, true, [], [], [], [], fun _ => .ok [],
          fun _ => none⟩ : World).jsFiles (storeRead st2.store) = content2 →
      cssStep ⟨.ok true, true, [], [], [], [], fun _ => .ok [], fun _ => none⟩
        st2 f2 = st2) :=
  c6_files_processed_accounting
    ⟨.ok true, true, [], [], [], [], fun _ => .ok [], fun _ => none⟩
    ⟨stats0, fun _ => .ok (str "keep")⟩ "a.js" (str "keep")
    ⟨"FILE_WRITE_ERROR", "Failed to write file: a.js", "a.js"⟩ rfl

end Turl
